import Mathlib

/-!
# Machine volume warning: path matching

A shallow embedding of `cmd/podman/common/machine_volume_warning.go`.

Go strings are modelled as lists of characters.  The code only ever inspects the
ASCII characters `/`, `.` and `:` of a path, so nothing depends on the encoding of
the other characters.

The standard-library functions of `path/filepath` are embedded for the Unix
targets (separator `/`, no volume names, `sameWord` is equality), element by
element: `Clean` and `Rel` both walk their argument one `/`-separated element at a
time, and the embedding walks the list of those elements, `strings.Split(path, "/")`.

The functions `specgen.SplitVolumeString` and `specgen.IsHostWinPath`, which the file
calls and which are not part of the sources at hand, and the result of `os.Getwd` are
parameters of the embedding (`Env`).  Log lines at debug level are left out.
-/

namespace MachineVolumeWarning

/-- A Go string, as the sequence of its characters. -/
abbrev GoString := List Char

/-! ## strings -/

/-- The function strings.HasPrefix. -/
def HasPrefix (s pre : GoString) : Bool := pre.isPrefixOf s

/-- The function strings.Join. -/
def Join (elems : List GoString) (sep : GoString) : GoString := sep.intercalate elems

/-- The function strings.Split for a one-character separator. -/
def Split (s : GoString) (sep : Char) : List GoString := s.splitOn sep

/-! ## path/filepath (Unix) -/

/-- The output buffer of `filepath.Clean`: the elements written so far, and `dotdot`,
the number of leading elements a `..` must not remove (in the Go code the index in
the buffer where `..` must stop). -/
structure lazybuf where
  elems : List GoString
  dotdot : Nat
deriving DecidableEq, Repr

/-- The loop body of `filepath.Clean` at the element `e` that starts at the read
position `r`; the four cases are those of the `switch`, in its order.  To backtrack is to
drop the last element written, with the separator before it. -/
def cleanStep (rooted : Bool) (out : lazybuf) (e : GoString) : lazybuf :=
  if e = [] then out -- empty path element
  else if e = ['.'] then out -- . element
  else if e = ['.', '.'] then
    -- .. element: remove to last separator
    if out.elems.length > out.dotdot then
      ⟨out.elems.dropLast, out.dotdot⟩ -- can backtrack
    else if !rooted then
      ⟨out.elems ++ [e], out.elems.length + 1⟩ -- cannot backtrack, but not rooted
    else out
  else ⟨out.elems ++ [e], out.dotdot⟩ -- real path element

/-- The function filepath.Clean on Unix: the empty path is `.`; a rooted path starts
with the separator, which is written first; then the loop runs over the elements. -/
def Clean (path : GoString) : GoString :=
  if path = [] then ['.']
  else
    let rooted := HasPrefix path ['/']
    let out := (Split path '/').foldl (cleanStep rooted) ⟨[], 0⟩
    if rooted then '/' :: Join out.elems ['/']
    else if out.elems = [] then ['.'] -- turn empty string into "."
    else Join out.elems ['/']

/-- The function filepath.IsAbs on Unix. -/
def IsAbs (path : GoString) : Bool := HasPrefix path ['/']

/-- The function filepath.Join: the elements from the first non-empty one on, joined
and cleaned. -/
def filepathJoin (elem : List GoString) : GoString :=
  match elem.dropWhile (fun e => e = []) with
  | [] => []
  | es => Clean (Join es ['/'])

/-- Whether the part of a path still to be read, given by its elements, is the empty
string (`b0 == bl` for the base, `t0 == tl` for the target): it has no element, or the
one empty element that follows a last separator. -/
def restEmpty (es : List GoString) : Bool := es = [] || es = [[]]

/-- The loop of `filepath.Rel` that positions `base[b0:bi]` and `targ[t0:ti]` at the
first differing elements.  The arguments are the elements of `base[b0:]` and of
`targ[t0:]`; the loop runs while neither string is empty, stops at the first pair of
elements that differ, and otherwise steps over both elements and their separators.  It
returns the elements of `base[b0:]`, those of `targ[t0:]`, and `base[b0:bi]`. -/
def relLoop : List GoString → List GoString → List GoString × List GoString × GoString
  | b :: bs, t :: ts =>
    if restEmpty (b :: bs) || restEmpty (t :: ts) then (b :: bs, t :: ts, [])
    else if t ≠ b then (b :: bs, t :: ts, b)
    else relLoop bs ts
  | bs, ts => (bs, ts, [])

/-- The error of `filepath.Rel`. -/
def relError (basepath targpath : GoString) : GoString :=
  "Rel: can't make ".toList ++ targpath ++ " relative to ".toList ++ basepath

/-- The function filepath.Rel on Unix.  When elements of the base are left, the result
goes up once for each of them (`seps + 1` times `..`) and then down the rest of the
target.  The test for `..` reads `base[b0:bi]`, the element of the base at which the loop
stopped.  With elements of the base left the outcome is thus the error or a result that
begins with `..`, and `isPathSharedWithMachine`, the one caller, goes on to the next mount
on either. -/
def Rel (basepath targpath : GoString) : Except GoString GoString :=
  let base := Clean basepath
  let targ := Clean targpath
  if targ = base then .ok ['.']
  else
    let base := if base = ['.'] then [] else base
    let baseSlashed := HasPrefix base ['/']
    let targSlashed := HasPrefix targ ['/']
    if baseSlashed != targSlashed then .error (relError basepath targpath)
    else
      let r := relLoop (Split base '/') (Split targ '/')
      let baseRest := Join r.1 ['/']
      let targRest := Join r.2.1 ['/']
      if r.2.2 = ['.', '.'] then .error (relError basepath targpath)
      else if baseRest ≠ [] then
        -- Base elements left. Must go up before going down.
        let seps := baseRest.count '/'
        .ok (['.', '.'] ++ (List.replicate seps ['/', '.', '.']).flatten ++
          (if targRest ≠ [] then '/' :: targRest else []))
      else .ok targRest

/-! ## sort -/

/-- The order `<` of Go strings: lexicographic on the characters. -/
def stringLess : GoString → GoString → Bool
  | [], [] => false
  | [], _ :: _ => true
  | _ :: _, [] => false
  | a :: as, b :: bs =>
    if a.toNat < b.toNat then true
    else if b.toNat < a.toNat then false
    else stringLess as bs

/-- The order `<=` of Go strings. -/
def stringLE (a b : GoString) : Prop := stringLess b a = false

instance : DecidableRel stringLE := fun a b => inferInstanceAs (Decidable (stringLess b a = false))

/-- The function sort.Strings: the strings in increasing order.  Equal strings cannot be
told apart, so every comparison sort returns this list. -/
def sortStrings (x : List GoString) : List GoString := x.insertionSort stringLE

/-! ## The collaborators of the check -/

/-- Modelled from the spec: `specgen.SplitVolumeString` is not among the sources.  The
spec calls a VolumeSpec "colon-delimited" with "only the first colon-delimited segment"
the candidate source: the fields between the colons. -/
def splitOnColon (vol : GoString) : List GoString := Split vol ':'

/-- Whether a character is an ASCII letter. -/
def isASCIILetter (c : Char) : Bool :=
  (65 ≤ c.toNat && c.toNat ≤ 90) || (97 ≤ c.toNat && c.toNat ≤ 122)

/-- Modelled from the spec: `specgen.IsHostWinPath` is not among the sources.  The spec
calls it "a recognized host-style absolute path pattern (e.g., drive-letter syntax)":
a drive letter, a colon and a separator, slash or backslash. -/
def driveLetterPath : GoString → Bool
  | d :: ':' :: s :: _ => isASCIILetter d && (s = '/' || s = '\\')
  | _ => false

/-- What the check takes from outside the file: the two functions of `specgen` it calls
and the result of `os.Getwd`, a directory or an error. -/
structure Env where
  SplitVolumeString : GoString → List GoString
  IsHostWinPath : GoString → Bool
  Getwd : Except GoString GoString

/-- A host on which volume specs split at the colons, drive-letter paths are host-style
and the working directory is `/home/user`. -/
def hostEnv : Env where
  SplitVolumeString := splitOnColon
  IsHostWinPath := driveLetterPath
  Getwd := .ok "/home/user".toList

/-- The host of `hostEnv` when the working directory has been deleted. -/
def lostEnv : Env where
  SplitVolumeString := splitOnColon
  IsHostWinPath := driveLetterPath
  Getwd := .error "getwd: no such file or directory".toList

/-- The function filepath.Abs on Unix. -/
def Abs (env : Env) (path : GoString) : Except GoString GoString :=
  if IsAbs path then .ok (Clean path)
  else
    match env.Getwd with
    | .error err => .error err
    | .ok wd => .ok (filepathJoin [wd, path])

/-- The function extractBindMountSource. -/
def extractBindMountSource (env : Env) (spec : GoString) : GoString × Bool :=
  let parts := env.SplitVolumeString spec
  if parts.length ≤ 1 then ([], false)
  else
    let src := parts.headD []
    if src.length = 0 then ([], false)
    else if HasPrefix src ['/'] || HasPrefix src ['.'] || env.IsHostWinPath src then (src, true)
    else ([], false)

/-- The function normalizeVolumeSource. -/
def normalizeVolumeSource (env : Env) (path : GoString) : Except GoString GoString :=
  if env.IsHostWinPath path then .ok (Clean path)
  else if IsAbs path then .ok (Clean path)
  else
    match Abs env path with
    | .error err => .error err
    | .ok absPath => .ok absPath

/-! ## vmconfigs -/

/-- The type vmconfigs.Mount; the check reads only its `Source`. -/
structure Mount where
  Source : GoString
deriving DecidableEq, Repr

/-! ## machine_volume_warning.go -/

/-- The loop of `isPathSharedWithMachine` over the mounts; a nil mount is `none`. -/
def sharedLoop (cleanPath : GoString) : List (Option Mount) → Bool
  | [] => false
  | none :: rest => sharedLoop cleanPath rest
  | some mount :: rest =>
    if mount.Source.length = 0 then sharedLoop cleanPath rest
    else
      let source := Clean mount.Source
      match Rel source cleanPath with
      | .error _ => sharedLoop cleanPath rest
      | .ok rel =>
        let rel := Clean rel
        if rel = ['.'] then true
        else if HasPrefix rel ['.', '.'] then sharedLoop cleanPath rest
        else true

/-- The function isPathSharedWithMachine. -/
def isPathSharedWithMachine (path : GoString) (mounts : List (Option Mount)) : Bool :=
  if mounts.length = 0 then false
  else sharedLoop (Clean path) mounts

/-- The local variables `unshared` and `seen` of `collectUnsharedHostPaths`; the key set
of the map `seen` is a list. -/
structure collectState where
  unshared : List GoString
  seen : List GoString
deriving DecidableEq, Repr

/-- One iteration of the loop of `collectUnsharedHostPaths`.  The debug log line of a
failed normalization is not modelled. -/
def collectStep (env : Env) (mounts : List (Option Mount)) (st : collectState)
    (spec : GoString) : collectState :=
  let r := extractBindMountSource env spec
  if !r.2 then st
  else
    match normalizeVolumeSource env r.1 with
    | .error _ => st
    | .ok normalized =>
      if !isPathSharedWithMachine normalized mounts then
        if !(st.seen.contains normalized) then
          ⟨st.unshared ++ [normalized], normalized :: st.seen⟩
        else st
      else st

/-- The function collectUnsharedHostPaths. -/
def collectUnsharedHostPaths (env : Env) (volumeSpecs : List GoString)
    (mounts : List (Option Mount)) : List GoString :=
  (volumeSpecs.foldl (collectStep env mounts) ⟨[], []⟩).unshared

/-- The constant machineVolumesDocURL. -/
def machineVolumesDocURL : GoString :=
  "https://docs.podman.io/en/latest/markdown/podman-machine-init.1.html#volume".toList

/-- The fields of the Podman configuration the check reads. -/
structure PodmanConfig where
  MachineMode : Bool
  URI : GoString

/-- The machine configuration; the check reads only its `Mounts`. -/
structure MachineConfig where
  Mounts : List (Option Mount)

/-- What `WarnIfMachineVolumesUnavailable` takes from the machine: the configuration
(`none` for nil), whether the connection URI parses, and the machine found for it with
whether its provider is of type WSL, or the error of the lookup. -/
structure MachineEnv where
  PodmanConfig : Option PodmanConfig
  ParseURI : GoString → Except GoString GoString
  FindMachineByPort : GoString → GoString → Except GoString (MachineConfig × Bool)

/-- The warning of `WarnIfMachineVolumesUnavailable` for the paths `missing`. -/
def warningText (missing : List GoString) : GoString :=
  "The following bind mount sources are not shared with the Podman machine and may not work: ".toList
    ++ Join missing ", ".toList ++ ". See ".toList ++ machineVolumesDocURL
    ++ " for details on configuring machine volumes.".toList

/-- The function WarnIfMachineVolumesUnavailable, as the list of the warnings it logs.
Debug log lines are not modelled. -/
def WarnIfMachineVolumesUnavailable (env : Env) (menv : MachineEnv)
    (volumeSpecs : List GoString) : List GoString :=
  if volumeSpecs.length = 0 then []
  else
    match menv.PodmanConfig with
    | none => []
    | some cfg =>
      if !cfg.MachineMode then []
      else
        let connectionURI := cfg.URI
        if connectionURI.length = 0 then []
        else
          match menv.ParseURI connectionURI with
          | .error _ => []
          | .ok parsedURI =>
            match menv.FindMachineByPort connectionURI parsedURI with
            | .error _ => []
            | .ok (machineConfig, isWSL) =>
              if isWSL then []
              else
                let missing := collectUnsharedHostPaths env volumeSpecs machineConfig.Mounts
                if missing.length = 0 then []
                else [warningText (sortStrings missing)]

/-! ## Auxiliary definitions of the proofs -/

/-- The path a spec contributes to the collector: the normalized source of a spec that
`extractBindMountSource` accepts, `normalizeVolumeSource` resolves and
`isPathSharedWithMachine` finds unshared; `none` for every other spec. -/
def unsharedSource (env : Env) (mounts : List (Option Mount)) (spec : GoString) :
    Option GoString :=
  let r := extractBindMountSource env spec
  if r.2 then
    match normalizeVolumeSource env r.1 with
    | .error _ => none
    | .ok x => if isPathSharedWithMachine x mounts then none else some x
  else none

/-- The path elements of a cleaned path: what stands between its separators.  The
path `.` is the empty relative path and the path `/` the empty rooted one: both have
no elements. -/
def pathElems (c : GoString) : List GoString :=
  (Split c '/').filter (fun e => e != [] && e != ['.'])

/-- A cleaned path `p` is a lexical descendant of a cleaned path `root`: both are rooted
or both are not, and the elements of `p` are those of `root` followed by one or more
further elements. -/
def lexicalDescendant (root p : GoString) : Prop :=
  IsAbs root = IsAbs p ∧ pathElems root <+: pathElems p ∧ pathElems root ≠ pathElems p

instance (root p : GoString) : Decidable (lexicalDescendant root p) :=
  inferInstanceAs (Decidable (_ ∧ _ ∧ _))

/-- A real path element: not empty, not `.`, not `..`, and without a separator. -/
def realElem (e : GoString) : Prop :=
  e ≠ [] ∧ e ≠ ['.'] ∧ e ≠ ['.', '.'] ∧ '/' ∉ e

/-- The elements of a cleaned path: `k` times `..`, with `k = 0` in a rooted path,
followed by real elements. -/
def normalElems (rooted : Bool) (S : List GoString) : Prop :=
  ∃ (k : Nat) (body : List GoString), S = List.replicate k ['.', '.'] ++ body ∧
    (∀ e ∈ body, realElem e) ∧ (rooted = true → k = 0)

/-- The invariant of the output buffer of `filepath.Clean`: the first `dotdot` elements
are `..`, the others are real elements. -/
def normalBuf (rooted : Bool) (out : lazybuf) : Prop :=
  ∃ body : List GoString, out.elems = List.replicate out.dotdot ['.', '.'] ++ body ∧
    (∀ e ∈ body, realElem e) ∧ (rooted = true → out.dotdot = 0)

/-- The string `filepath.Clean` returns for the elements left in its buffer. -/
def render (rooted : Bool) (S : List GoString) : GoString :=
  if rooted then '/' :: Join S ['/']
  else if S = [] then ['.']
  else Join S ['/']

/-- Whether one entry of the mount list makes the cleaned path shared: the body of the
loop of `isPathSharedWithMachine` for that entry, `false` where the loop continues. -/
def mountShares (cleanPath : GoString) (m : Option Mount) : Bool :=
  match m with
  | none => false
  | some mount =>
    if mount.Source.length = 0 then false
    else
      match Rel (Clean mount.Source) cleanPath with
      | .error _ => false
      | .ok rel =>
        if Clean rel = ['.'] then true
        else if HasPrefix (Clean rel) ['.', '.'] then false
        else true

/-- An entry of the mount list the loop of `isPathSharedWithMachine` does not skip at
once: not nil, and with a non-empty `Source`. -/
def usableMount (m : Option Mount) : Bool :=
  match m with
  | none => false
  | some mount => mount.Source != []

/-- Extract-and-normalize: the normalized source of a spec that
`extractBindMountSource` accepts and `normalizeVolumeSource` resolves; `none` for every
other spec. -/
def normalizedSource (env : Env) (spec : GoString) : Option GoString :=
  let r := extractBindMountSource env spec
  if r.2 then
    match normalizeVolumeSource env r.1 with
    | .error _ => none
    | .ok x => some x
  else none

/-- A list with every repeat of an entry after its first occurrence removed. -/
def firstOccurrences : List GoString → List GoString
  | [] => []
  | x :: xs => x :: (firstOccurrences xs).filter (fun y => y != x)

/-- A machine in machine mode whose connection URI parses and whose lookup succeeds, with
the one mount `/tmp/shared` and a provider that is not of type WSL. -/
def sharedTmpMachine : MachineEnv where
  PodmanConfig := some ⟨true, "ssh://core@127.0.0.1:2222".toList⟩
  ParseURI := fun u => .ok u
  FindMachineByPort := fun _ _ => .ok (⟨[some ⟨"/tmp/shared".toList⟩]⟩, false)

/-! ## Splitting and joining at the separator -/

theorem splitOnP_no_sep (q : Char → Bool) (s : GoString) :
    ∀ e ∈ s.splitOnP q, ∀ a ∈ e, q a = false := by
  induction s with
  | nil =>
    intro e he a ha
    rw [List.splitOnP_nil] at he
    rw [List.mem_singleton] at he
    subst he
    exact absurd ha (List.not_mem_nil a)
  | cons x xs ih =>
    intro e he a ha
    rw [List.splitOnP_cons] at he
    by_cases hx : q x = true
    · rw [if_pos hx] at he
      rcases List.mem_cons.1 he with h | h
      · subst h
        exact absurd ha (List.not_mem_nil a)
      · exact ih e h a ha
    · rw [if_neg hx] at he
      cases hsp : List.splitOnP q xs with
      | nil => exact absurd hsp (List.splitOnP_ne_nil q xs)
      | cons hd tl =>
        rw [hsp] at he ih
        simp only [List.modifyHead_cons, List.mem_cons] at he
        rcases he with h | h
        · subst h
          rcases List.mem_cons.1 ha with h2 | h2
          · subst h2
            simpa using hx
          · exact ih hd (List.mem_cons_self _ _) a h2
        · exact ih e (List.mem_cons_of_mem _ h) a ha

theorem Split_no_sep (s : GoString) (c : Char) : ∀ e ∈ Split s c, c ∉ e := by
  intro e he hc
  have := splitOnP_no_sep (fun x => x == c) s e he c hc
  simp at this

theorem Split_ne_nil (s : GoString) (c : Char) : Split s c ≠ [] :=
  List.splitOnP_ne_nil _ s

theorem Split_nil (c : Char) : Split [] c = [[]] := rfl

theorem Split_sep_cons (s : GoString) (c : Char) : Split (c :: s) c = [] :: Split s c := by
  unfold Split List.splitOn
  rw [List.splitOnP_cons]
  simp

theorem Split_Join (es : List GoString) (c : Char) (hne : es ≠ [])
    (hsep : ∀ e ∈ es, c ∉ e) : Split (Join es [c]) c = es :=
  List.splitOn_intercalate es c hsep hne

theorem Join_Split (s : GoString) (c : Char) : Join (Split s c) [c] = s :=
  List.intercalate_splitOn s c

theorem Split_single (e : GoString) (c : Char) (h : c ∉ e) : Split e c = [e] := by
  have := Split_Join [e] c (by simp) (by simpa using h)
  simpa [Join, List.intercalate] using this

theorem Join_nil (sep : GoString) : Join [] sep = [] := rfl

theorem Join_single (e sep : GoString) : Join [e] sep = e := by
  simp [Join, List.intercalate]

theorem Join_cons_cons (e e2 : GoString) (rest : List GoString) (c : Char) :
    Join (e :: e2 :: rest) [c] = e ++ c :: Join (e2 :: rest) [c] := by
  simp [Join, List.intercalate]

/-! ## The normal form of `filepath.Clean` -/

theorem realElem_dotdot_not : ¬ realElem ['.', '.'] := fun h => h.2.2.1 rfl

theorem cleanStep_real (rooted : Bool) (out : lazybuf) (e : GoString) (he : realElem e) :
    cleanStep rooted out e = ⟨out.elems ++ [e], out.dotdot⟩ := by
  unfold cleanStep
  rw [if_neg he.1, if_neg he.2.1, if_neg he.2.2.1]

theorem cleanStep_normal (rooted : Bool) (out : lazybuf) (e : GoString)
    (h : normalBuf rooted out) (he : '/' ∉ e) : normalBuf rooted (cleanStep rooted out e) := by
  obtain ⟨body, hel, hreal, hroot⟩ := h
  by_cases h1 : e = []
  · simpa [cleanStep, h1] using ⟨body, hel, hreal, hroot⟩
  by_cases h2 : e = ['.']
  · simpa [cleanStep, h2] using ⟨body, hel, hreal, hroot⟩
  by_cases h3 : e = ['.', '.']
  · subst h3
    unfold cleanStep
    rw [if_neg h1, if_neg h2, if_pos rfl]
    by_cases hlen : out.elems.length > out.dotdot
    · rw [if_pos hlen]
      have hb : body ≠ [] := by
        intro hb
        rw [hel, hb] at hlen
        simp at hlen
      refine ⟨body.dropLast, ?_, ?_, hroot⟩
      · show out.elems.dropLast = _
        rw [hel, List.dropLast_append_of_ne_nil _ hb]
      · intro x hx
        exact hreal x (List.dropLast_subset body hx)
    · rw [if_neg hlen]
      cases rooted with
      | true => exact ⟨body, hel, hreal, hroot⟩
      | false =>
        have hb : body = [] := by
          rw [hel] at hlen
          simp at hlen
          exact hlen
        refine ⟨[], ?_, by simp, by simp⟩
        show out.elems ++ [['.', '.']] = List.replicate (out.elems.length + 1) ['.', '.'] ++ []
        rw [hel, hb]
        simp [List.replicate_succ']
  · rw [cleanStep_real rooted out e ⟨h1, h2, h3, he⟩]
    refine ⟨body ++ [e], ?_, ?_, hroot⟩
    · show out.elems ++ [e] = _
      rw [hel, List.append_assoc]
    · intro x hx
      rcases List.mem_append.1 hx with h | h
      · exact hreal x h
      · rw [List.mem_singleton] at h
        subst h
        exact ⟨h1, h2, h3, he⟩

theorem foldl_cleanStep_normal (rooted : Bool) (es : List GoString) (out : lazybuf)
    (h : normalBuf rooted out) (hes : ∀ e ∈ es, '/' ∉ e) :
    normalBuf rooted (es.foldl (cleanStep rooted) out) := by
  induction es generalizing out with
  | nil => exact h
  | cons e rest ih =>
    rw [List.foldl_cons]
    exact ih _ (cleanStep_normal rooted out e h (hes e (List.mem_cons_self _ _)))
      (fun x hx => hes x (List.mem_cons_of_mem _ hx))

theorem Clean_of_ne_nil (p : GoString) (h : p ≠ []) :
    Clean p = render (IsAbs p) ((Split p '/').foldl (cleanStep (IsAbs p)) ⟨[], 0⟩).elems := by
  unfold Clean render IsAbs
  rw [if_neg h]

/-- The result of `filepath.Clean` is the rendering of elements in normal form. -/
theorem Clean_eq_render (p : GoString) :
    ∃ S, normalElems (IsAbs p) S ∧ Clean p = render (IsAbs p) S := by
  by_cases h : p = []
  · subst h
    exact ⟨[], ⟨0, [], rfl, by simp, fun _ => rfl⟩, rfl⟩
  · have hn : normalBuf (IsAbs p) ((Split p '/').foldl (cleanStep (IsAbs p)) ⟨[], 0⟩) :=
      foldl_cleanStep_normal (IsAbs p) _ _ ⟨[], rfl, by simp, fun _ => rfl⟩
        (Split_no_sep p '/')
    obtain ⟨body, hel, hreal, hroot⟩ := hn
    exact ⟨_, ⟨_, body, hel, hreal, hroot⟩, Clean_of_ne_nil p h⟩

theorem normalElems_mem (rooted : Bool) (S : List GoString) (h : normalElems rooted S) :
    ∀ e ∈ S, e ≠ [] ∧ e ≠ ['.'] ∧ '/' ∉ e := by
  obtain ⟨k, body, hS, hreal, _⟩ := h
  intro e he
  rw [hS] at he
  rcases List.mem_append.1 he with h1 | h1
  · have := List.eq_of_mem_replicate h1
    subst this
    exact ⟨by decide, by decide, by decide⟩
  · exact ⟨(hreal e h1).1, (hreal e h1).2.1, (hreal e h1).2.2.2⟩

theorem foldl_cleanStep_dotdots (k j : Nat) :
    (List.replicate k ['.', '.']).foldl (cleanStep false) ⟨List.replicate j ['.', '.'], j⟩ =
      ⟨List.replicate (j + k) ['.', '.'], j + k⟩ := by
  induction k generalizing j with
  | zero => rfl
  | succ k ih =>
    rw [List.replicate_succ, List.foldl_cons]
    have hstep : cleanStep false ⟨List.replicate j ['.', '.'], j⟩ ['.', '.'] =
        ⟨List.replicate (j + 1) ['.', '.'], j + 1⟩ := by
      simp [cleanStep, List.replicate_succ']
    rw [hstep, ih (j + 1)]
    have : j + 1 + k = j + (k + 1) := by omega
    rw [this]

theorem foldl_cleanStep_real (rooted : Bool) (body : List GoString)
    (hreal : ∀ e ∈ body, realElem e) (S : List GoString) (d : Nat) :
    body.foldl (cleanStep rooted) ⟨S, d⟩ = ⟨S ++ body, d⟩ := by
  induction body generalizing S with
  | nil => simp
  | cons e rest ih =>
    rw [List.foldl_cons, cleanStep_real rooted _ e (hreal e (List.mem_cons_self _ _))]
    rw [ih (fun x hx => hreal x (List.mem_cons_of_mem _ hx))]
    simp

/-- Cleaning elements that are in normal form leaves them as they are. -/
theorem foldl_cleanStep_normalElems (rooted : Bool) (S : List GoString)
    (h : normalElems rooted S) : (S.foldl (cleanStep rooted) ⟨[], 0⟩).elems = S := by
  obtain ⟨k, body, hS, hreal, hroot⟩ := h
  cases rooted with
  | true =>
    have hk : k = 0 := hroot rfl
    subst hk
    simp only [List.replicate_zero, List.nil_append] at hS
    subst hS
    rw [foldl_cleanStep_real true S hreal]
    simp
  | false =>
    subst hS
    rw [List.foldl_append]
    have := foldl_cleanStep_dotdots k 0
    simp only [List.replicate_zero, Nat.zero_add] at this
    rw [this, foldl_cleanStep_real false body hreal]

theorem foldl_cleanStep_nil_cons (rooted : Bool) (es : List GoString) (out : lazybuf) :
    (([] : GoString) :: es).foldl (cleanStep rooted) out = es.foldl (cleanStep rooted) out := by
  rw [List.foldl_cons]
  rfl

theorem Join_ne_nil (e : GoString) (rest : List GoString) (c : Char) (he : e ≠ []) :
    Join (e :: rest) [c] ≠ [] := by
  cases rest with
  | nil => rwa [Join_single]
  | cons e2 r => rw [Join_cons_cons]; simp [he]

theorem HasPrefix_Join (e : GoString) (rest : List GoString) (c : Char) (he : e ≠ [])
    (hc : c ∉ e) : HasPrefix (Join (e :: rest) [c]) [c] = false := by
  cases e with
  | nil => exact absurd rfl he
  | cons x xs =>
    have hx : x ≠ c := fun h => hc (h ▸ List.mem_cons_self _ _)
    cases rest with
    | nil => rw [Join_single]; simp [HasPrefix, List.isPrefixOf, Ne.symm hx]
    | cons e2 r => rw [Join_cons_cons]; simp [HasPrefix, List.isPrefixOf, Ne.symm hx]

theorem render_root_nil : render true [] = ['/'] := rfl

theorem Split_render_true (S : List GoString) (h : normalElems true S) :
    Split (render true S) '/' = [] :: (if S = [] then [[]] else S) := by
  unfold render
  rw [if_pos rfl, Split_sep_cons]
  by_cases hS : S = []
  · subst hS
    simp [Join_nil, Split_nil]
  · rw [if_neg hS, Split_Join S '/' hS (fun e he => (normalElems_mem true S h e he).2.2)]

theorem Split_render_false (S : List GoString) (h : normalElems false S) (hS : S ≠ []) :
    Split (render false S) '/' = S := by
  unfold render
  simp only [Bool.false_eq_true, if_false, if_neg hS]
  exact Split_Join S '/' hS (fun e he => (normalElems_mem false S h e he).2.2)

theorem IsAbs_render (rooted : Bool) (S : List GoString) (h : normalElems rooted S) :
    IsAbs (render rooted S) = rooted := by
  cases rooted with
  | true => simp [render, IsAbs, HasPrefix, List.isPrefixOf]
  | false =>
    cases S with
    | nil => decide
    | cons e rest =>
      have he := normalElems_mem false _ h e (List.mem_cons_self _ _)
      simp only [render, Bool.false_eq_true, if_false, if_neg (List.cons_ne_nil e rest)]
      exact HasPrefix_Join e rest '/' he.1 he.2.2

theorem render_ne_nil (rooted : Bool) (S : List GoString) (h : normalElems rooted S) :
    render rooted S ≠ [] := by
  cases rooted with
  | true => simp [render]
  | false =>
    cases S with
    | nil => simp [render]
    | cons e rest =>
      have he := normalElems_mem false _ h e (List.mem_cons_self _ _)
      simp only [render, Bool.false_eq_true, if_false, if_neg (List.cons_ne_nil e rest)]
      exact Join_ne_nil e rest '/' he.1

/-- Cleaning the rendering of elements in normal form returns that rendering. -/
theorem Clean_render (rooted : Bool) (S : List GoString) (h : normalElems rooted S) :
    Clean (render rooted S) = render rooted S := by
  rw [Clean_of_ne_nil _ (render_ne_nil rooted S h), IsAbs_render rooted S h]
  congr 1
  cases rooted with
  | true =>
    rw [Split_render_true S h, foldl_cleanStep_nil_cons]
    by_cases hS : S = []
    · subst hS
      rfl
    · rw [if_neg hS]
      exact foldl_cleanStep_normalElems true S h
  | false =>
    by_cases hS : S = []
    · subst hS
      rfl
    · rw [Split_render_false S h hS]
      exact foldl_cleanStep_normalElems false S h

/-- The function filepath.Clean is idempotent. -/
theorem Clean_idempotent (p : GoString) : Clean (Clean p) = Clean p := by
  obtain ⟨S, hS, hp⟩ := Clean_eq_render p
  rw [hp]
  exact Clean_render _ S hS

/-- The function filepath.Clean keeps a rooted path rooted and a relative one relative. -/
theorem IsAbs_Clean (p : GoString) : IsAbs (Clean p) = IsAbs p := by
  obtain ⟨S, hS, hp⟩ := Clean_eq_render p
  rw [hp]
  exact IsAbs_render _ S hS

/-! ## The elements of a cleaned path -/

theorem pathElems_render (rooted : Bool) (S : List GoString) (h : normalElems rooted S) :
    pathElems (render rooted S) = S := by
  have hfilter : S.filter (fun e => e != [] && e != ['.']) = S := by
    rw [List.filter_eq_self]
    intro e he
    have := normalElems_mem rooted S h e he
    simp [this.1, this.2.1]
  unfold pathElems
  cases rooted with
  | true =>
    rw [Split_render_true S h]
    by_cases hS : S = []
    · subst hS
      rfl
    · rw [if_neg hS, List.filter_cons]
      simpa using hfilter
  | false =>
    by_cases hS : S = []
    · subst hS
      rfl
    · rw [Split_render_false S h hS]
      exact hfilter

theorem render_false_ne_dot (S : List GoString) (h : normalElems false S) (hS : S ≠ []) :
    render false S ≠ ['.'] := by
  intro hc
  have h1 := Split_render_false S h hS
  rw [hc] at h1
  have h2 : Split ['.'] '/' = [['.']] := by decide
  rw [h2] at h1
  have := normalElems_mem false S h ['.'] (by rw [← h1]; exact List.mem_singleton_self _)
  exact this.2.1 rfl

/-! ## The loop of `filepath.Rel` -/

theorem restEmpty_cons (b : GoString) (bs : List GoString) (hb : b ≠ []) :
    restEmpty (b :: bs) = false := by
  simp [restEmpty, hb]

/-- When the loop of `filepath.Rel` leaves nothing of the base, the elements of the base
are the first elements of the target. -/
theorem relLoop_base_consumed (bs ts : List GoString) (hbs : ∀ b ∈ bs, b ≠ [])
    (hts : ∀ t ∈ ts, t ≠ []) (h : Join (relLoop bs ts).1 ['/'] = []) : bs <+: ts := by
  induction bs generalizing ts with
  | nil => exact List.nil_prefix
  | cons b bs ih =>
    have hb : b ≠ [] := hbs b (List.mem_cons_self _ _)
    cases ts with
    | nil =>
      simp only [relLoop] at h
      exact absurd h (Join_ne_nil b bs '/' hb)
    | cons t ts =>
      have ht : t ≠ [] := hts t (List.mem_cons_self _ _)
      rw [relLoop, restEmpty_cons b bs hb, restEmpty_cons t ts ht] at h
      simp only [Bool.or_self, Bool.false_eq_true, if_false] at h
      by_cases htb : t = b
      · subst htb
        simp only [ne_eq, not_true_eq_false, if_false] at h
        have := ih ts (fun x hx => hbs x (List.mem_cons_of_mem _ hx))
          (fun x hx => hts x (List.mem_cons_of_mem _ hx)) h
        exact (List.prefix_cons_inj t).2 this
      · simp only [ne_eq, htb, not_false_eq_true, if_true] at h
        exact absurd h (Join_ne_nil b bs '/' hb)

/-! ## Cleaning a path that goes up -/

theorem foldl_cleanStep_keeps_dotdot (es : List GoString) (out : lazybuf)
    (h : ∃ rest, out.elems = ['.', '.'] :: rest) (hd : 1 ≤ out.dotdot)
    (hl : out.dotdot ≤ out.elems.length) :
    ∃ rest, (es.foldl (cleanStep false) out).elems = ['.', '.'] :: rest := by
  induction es generalizing out with
  | nil => exact h
  | cons e es ih =>
    rw [List.foldl_cons]
    obtain ⟨rest, hrest⟩ := h
    by_cases h1 : e = []
    · have : cleanStep false out e = out := by simp [cleanStep, h1]
      rw [this]
      exact ih out ⟨rest, hrest⟩ hd hl
    by_cases h2 : e = ['.']
    · have : cleanStep false out e = out := by simp [cleanStep, h2]
      rw [this]
      exact ih out ⟨rest, hrest⟩ hd hl
    by_cases h3 : e = ['.', '.']
    · by_cases hlen : out.elems.length > out.dotdot
      · have : cleanStep false out e = ⟨out.elems.dropLast, out.dotdot⟩ := by
          simp [cleanStep, h3, hlen]
        rw [this]
        have hr : rest ≠ [] := by
          intro hr
          rw [hrest, hr] at hlen
          simp at hlen
          omega
        apply ih
        · refine ⟨rest.dropLast, ?_⟩
          show out.elems.dropLast = _
          rw [hrest]
          cases rest with
          | nil => exact absurd rfl hr
          | cons x xs => rfl
        · exact hd
        · show out.dotdot ≤ out.elems.dropLast.length
          rw [List.length_dropLast]
          omega
      · have : cleanStep false out e = ⟨out.elems ++ [e], out.elems.length + 1⟩ := by
          simp [cleanStep, h3, hlen]
        rw [this]
        apply ih
        · exact ⟨rest ++ [e], by show out.elems ++ [e] = _; rw [hrest]; rfl⟩
        · show 1 ≤ out.elems.length + 1
          omega
        · show out.elems.length + 1 ≤ (out.elems ++ [e]).length
          simp
    · have : cleanStep false out e = ⟨out.elems ++ [e], out.dotdot⟩ := by
        simp [cleanStep, h1, h2, h3]
      rw [this]
      apply ih
      · exact ⟨rest ++ [e], by show out.elems ++ [e] = _; rw [hrest]; rfl⟩
      · exact hd
      · show out.dotdot ≤ (out.elems ++ [e]).length
        rw [List.length_append]
        omega

/-- The cleaned form of a path whose first element is `..` starts with `..`. -/
theorem Clean_dotdot_first (Y : GoString) (hY : Y = [] ∨ ∃ Z, Y = '/' :: Z) :
    Clean (['.', '.'] ++ Y) ≠ ['.'] ∧ HasPrefix (Clean (['.', '.'] ++ Y)) ['.', '.'] = true := by
  have hsplit : ∃ es, Split (['.', '.'] ++ Y) '/' = ['.', '.'] :: es := by
    rcases hY with h | ⟨Z, h⟩
    · subst h
      exact ⟨[], by decide⟩
    · subst h
      refine ⟨Split Z '/', ?_⟩
      unfold Split List.splitOn
      exact List.splitOnP_first (fun x => x == '/') ['.', '.'] (by decide) '/' (by decide) Z
  obtain ⟨es, hes⟩ := hsplit
  have habs : IsAbs (['.', '.'] ++ Y) = false := by
    simp [IsAbs, HasPrefix, List.isPrefixOf]
  rw [Clean_of_ne_nil _ (by simp), habs, hes, List.foldl_cons]
  have hstep : cleanStep false ⟨[], 0⟩ ['.', '.'] = ⟨[['.', '.']], 1⟩ := by decide
  rw [hstep]
  obtain ⟨rest, hrest⟩ := foldl_cleanStep_keeps_dotdot es ⟨[['.', '.']], 1⟩ ⟨[], rfl⟩
    (Nat.le_refl 1) (Nat.le_refl 1)
  rw [hrest]
  simp only [render, Bool.false_eq_true, if_false, if_neg (List.cons_ne_nil _ rest)]
  cases rest with
  | nil => rw [Join_single]; exact ⟨by decide, by decide⟩
  | cons x xs =>
    rw [Join_cons_cons]
    exact ⟨by simp, by simp [HasPrefix, List.isPrefixOf]⟩

/-! ## The embedding of `path/filepath` on examples -/

/-- The embedding of `filepath.Clean` on paths that are already clean, on trailing and
doubled separators, and on `.` and `..` elements. -/
theorem Clean_examples :
    ["abc", "a/b/c", ".", "..", "../../abc", "/abc", "/", "", "abc/def/", "./", "../../",
        "/abc/", "abc//def//ghi", "abc/./def", "/./abc/def", "abc/.",
        "abc/def/ghi/../jkl", "abc/def/../ghi/../jkl", "abc/def/../..", "/abc/def/../..",
        "abc/def/../../..", "/abc/def/../../..", "abc/def/../../../ghi/jkl/../../../mno",
        "/../abc", "abc/./../def", "abc/../../././../def"].map
        (fun p => Clean p.toList) =
      ["abc", "a/b/c", ".", "..", "../../abc", "/abc", "/", ".", "abc/def", ".", "../..",
        "/abc", "abc/def/ghi", "abc/def", "/abc/def", "abc",
        "abc/def/jkl", "abc/jkl", ".", "/",
        "..", "/", "../../mno",
        "/abc", "def", "../../def"].map String.toList := by
  decide

/-- The embedding of `filepath.Rel` on equal paths, on descendants, on paths that lie
outside the base, and on paths that cannot be made relative to the base. -/
theorem Rel_examples :
    [("a/b", "a/b/."), ("a/b", "a/b/c/d"), ("ab/cd", "ab/cde"), ("a/b/c", "a/c/d"),
        ("a/b/c/d", "a/b"), ("../../a/b", "../../a/b/c/d"), ("/a/b", "/a/b/c/d"),
        ("/a/b", "/c/d"), ("/a/b/c/d/", "/a/b/"), ("/", "/a"), (".", "a/b"), (".", ".."),
        ("..", "a"), ("a", "/a"), ("/a", "a")].map
        (fun x => (Rel x.1.toList x.2.toList).toOption) =
      [some ".", some "c/d", some "../cde", some "../../c/d",
        some "../..", some "c/d", some "c/d",
        some "../../c/d", some "../..", some "a", some "a/b", some "..",
        none, none, none].map (Option.map String.toList) := by
  decide

/-! ## The share test -/

/-- The elements the loop of `filepath.Rel` leaves of the base are empty only when the
elements of the cleaned base are the first elements of the cleaned target. -/
theorem relLoop_render (rooted : Bool) (Sb St : List GoString)
    (hb : normalElems rooted Sb) (ht : normalElems rooted St)
    (h : Join (relLoop
        (Split (if render rooted Sb = ['.'] then [] else render rooted Sb) '/')
        (Split (render rooted St) '/')).1 ['/'] = []) :
    Sb <+: St := by
  by_cases hSb : Sb = []
  · rw [hSb]
    exact List.nil_prefix
  have hbne : ∀ b ∈ Sb, b ≠ [] := fun b hx => (normalElems_mem rooted Sb hb b hx).1
  have htne : ∀ t ∈ St, t ≠ [] := fun t hx => (normalElems_mem rooted St ht t hx).1
  obtain ⟨b1, bs, hbs⟩ := List.exists_cons_of_ne_nil hSb
  have hb1 : b1 ≠ [] := hbne b1 (by rw [hbs]; exact List.mem_cons_self _ _)
  cases rooted with
  | true =>
    have hdot : render true Sb ≠ ['.'] := by simp [render]
    rw [if_neg hdot, Split_render_true Sb hb, Split_render_true St ht, if_neg hSb] at h
    by_cases hSt : St = []
    · rw [if_pos hSt, hbs] at h
      have : relLoop ([] :: b1 :: bs) [[], []] = (b1 :: bs, [[]], []) := by
        simp [relLoop, restEmpty, hb1]
      rw [this] at h
      exact absurd h (Join_ne_nil b1 bs '/' hb1)
    · rw [if_neg hSt] at h
      obtain ⟨t1, ts, hts⟩ := List.exists_cons_of_ne_nil hSt
      have : relLoop ([] :: Sb) ([] :: St) = relLoop Sb St := by
        rw [hbs, hts]
        simp [relLoop, restEmpty]
      rw [this] at h
      exact relLoop_base_consumed Sb St hbne htne h
  | false =>
    rw [if_neg (render_false_ne_dot Sb hb hSb), Split_render_false Sb hb hSb] at h
    by_cases hSt : St = []
    · have hsp : Split (render false St) '/' = [['.']] := by rw [hSt]; decide
      rw [hsp, hbs] at h
      have hb1dot : b1 ≠ ['.'] :=
        (normalElems_mem false Sb hb b1 (by rw [hbs]; exact List.mem_cons_self _ _)).2.1
      have : relLoop (b1 :: bs) [['.']] = (b1 :: bs, [['.']], b1) := by
        simp [relLoop, restEmpty, hb1, Ne.symm hb1dot]
      rw [this] at h
      exact absurd h (Join_ne_nil b1 bs '/' hb1)
    · rw [Split_render_false St ht hSt] at h
      exact relLoop_base_consumed Sb St hbne htne h

theorem replicate_up_flatten (n : Nat) (tail : GoString)
    (htail : tail = [] ∨ ∃ Z, tail = '/' :: Z) :
    (List.replicate n ['/', '.', '.']).flatten ++ tail = [] ∨
      ∃ Z, (List.replicate n ['/', '.', '.']).flatten ++ tail = '/' :: Z := by
  cases n with
  | zero => simpa using htail
  | succ n =>
    right
    exact ⟨_, by rw [List.replicate_succ, List.flatten_cons]; rfl⟩

/-- When `filepath.Rel` succeeds from a cleaned root to a cleaned path with a result
that the share test accepts (its cleaned form is `.` or does not start with `..`), the
path is the root or a lexical descendant of the root. -/
theorem Rel_accepted (s p rel : GoString) (h : Rel (Clean s) (Clean p) = .ok rel)
    (hrel : Clean rel = ['.'] ∨ HasPrefix (Clean rel) ['.', '.'] = false) :
    Clean p = Clean s ∨ lexicalDescendant (Clean s) (Clean p) := by
  by_cases heq : Clean p = Clean s
  · exact Or.inl heq
  right
  obtain ⟨Sb, hSb, hb⟩ := Clean_eq_render s
  obtain ⟨St, hSt, ht⟩ := Clean_eq_render p
  unfold Rel at h
  simp only [Clean_idempotent, if_neg heq] at h
  have hbase : HasPrefix (if Clean s = ['.'] then [] else Clean s) ['/'] = IsAbs s := by
    by_cases hd : Clean s = ['.']
    · rw [if_pos hd]
      have := IsAbs_Clean s
      rw [hd] at this
      rw [← this]
      rfl
    · rw [if_neg hd]
      exact IsAbs_Clean s
  have htarg : HasPrefix (Clean p) ['/'] = IsAbs p := IsAbs_Clean p
  rw [hbase, htarg] at h
  by_cases hroot : IsAbs s = IsAbs p
  · have hne : (IsAbs s != IsAbs p) = false := by simp [hroot]
    rw [hne] at h
    simp only [Bool.false_eq_true, if_false] at h
    by_cases hcur : (relLoop (Split (if Clean s = ['.'] then [] else Clean s) '/')
        (Split (Clean p) '/')).2.2 = ['.', '.']
    · rw [if_pos hcur] at h
      exact absurd h (by simp)
    · rw [if_neg hcur] at h
      by_cases hrest : Join (relLoop (Split (if Clean s = ['.'] then [] else Clean s) '/')
          (Split (Clean p) '/')).1 ['/'] = []
      · rw [hroot] at hSb hb
        have hpre : Sb <+: St := by
          apply relLoop_render (IsAbs p) Sb St hSb hSt
          rw [← hb, ← ht]
          exact hrest
        refine ⟨(IsAbs_Clean s).trans (hroot.trans (IsAbs_Clean p).symm), ?_, ?_⟩
        · rw [hb, ht, pathElems_render _ Sb hSb, pathElems_render _ St hSt]
          exact hpre
        · rw [hb, ht, pathElems_render _ Sb hSb, pathElems_render _ St hSt]
          intro hSS
          apply heq
          rw [hb, ht, hSS]
      · exfalso
        simp only [ne_eq, hrest, not_false_eq_true, if_true, Except.ok.injEq] at h
        have hshape := replicate_up_flatten
          ((Join (relLoop (Split (if Clean s = ['.'] then [] else Clean s) '/')
            (Split (Clean p) '/')).1 ['/']).count '/')
          (if ¬ Join (relLoop (Split (if Clean s = ['.'] then [] else Clean s) '/')
              (Split (Clean p) '/')).2.1 ['/'] = []
            then '/' :: Join (relLoop (Split (if Clean s = ['.'] then [] else Clean s) '/')
              (Split (Clean p) '/')).2.1 ['/'] else [])
          (by split_ifs <;> simp)
        have hup := Clean_dotdot_first _ hshape
        rw [← List.append_assoc, h] at hup
        rcases hrel with h1 | h1
        · exact hup.1 h1
        · rw [hup.2] at h1
          exact absurd h1 (by decide)
  · have hne : (IsAbs s != IsAbs p) = true := by simp [hroot]
    rw [hne] at h
    simp at h

theorem sharedLoop_outside (t : GoString) (mounts : List (Option Mount))
    (ht : ∃ p, t = Clean p)
    (h : ∀ mt, some mt ∈ mounts →
      t ≠ Clean mt.Source ∧ ¬ lexicalDescendant (Clean mt.Source) t) :
    sharedLoop t mounts = false := by
  obtain ⟨p, hp⟩ := ht
  induction mounts with
  | nil => rfl
  | cons m rest ih =>
    have ihr := ih (fun mt hm => h mt (List.mem_cons_of_mem _ hm))
    cases m with
    | none => simpa [sharedLoop] using ihr
    | some mount =>
      have hm := h mount (List.mem_cons_self _ _)
      unfold sharedLoop
      by_cases hlen : mount.Source.length = 0
      · rw [if_pos hlen]
        exact ihr
      · rw [if_neg hlen]
        simp only []
        cases hR : Rel (Clean mount.Source) t with
        | error e => exact ihr
        | ok rel =>
          simp only []
          by_cases h1 : Clean rel = ['.']
          · exfalso
            rw [hp] at hR hm
            rcases Rel_accepted mount.Source p rel hR (Or.inl h1) with h2 | h2
            · exact hm.1 h2
            · exact hm.2 h2
          · rw [if_neg h1]
            cases h2 : HasPrefix (Clean rel) ['.', '.']
            · exfalso
              rw [hp] at hR hm
              rcases Rel_accepted mount.Source p rel hR (Or.inr h2) with h3 | h3
              · exact hm.1 h3
              · exact hm.2 h3
            · simpa using ihr

/-- C2: when the cleaned path is neither equal to the cleaned `Source` of any entry of
the mount list nor a lexical descendant of it (the elements of the cleaned source
followed by further elements), `isPathSharedWithMachine` returns false. A sibling
directory is such a path, and so is a path that only has a root as a string prefix. -/
theorem isPathSharedWithMachine_outside (p : GoString) (mounts : List (Option Mount))
    (h : ∀ mt, some mt ∈ mounts →
      Clean p ≠ Clean mt.Source ∧ ¬ lexicalDescendant (Clean mt.Source) (Clean p)) :
    isPathSharedWithMachine p mounts = false := by
  unfold isPathSharedWithMachine
  split_ifs
  · rfl
  · exact sharedLoop_outside (Clean p) mounts ⟨p, rfl⟩ h

theorem isPathSharedWithMachine_outside_witness :
    isPathSharedWithMachine "/tmp/sharedX".toList
      [some ⟨"/tmp/shared".toList⟩, none, some ⟨"/srv/data/".toList⟩] = false :=
  isPathSharedWithMachine_outside "/tmp/sharedX".toList
    [some ⟨"/tmp/shared".toList⟩, none, some ⟨"/srv/data/".toList⟩] (by
      intro mt hmt
      simp only [List.mem_cons, Option.some.injEq, List.mem_singleton, reduceCtorEq,
        false_or, List.not_mem_nil, or_false] at hmt
      rcases hmt with h | h <;> subst h <;> decide)

/-! ## The share test, entry by entry -/

theorem sharedLoop_cons (t : GoString) (m : Option Mount) (rest : List (Option Mount)) :
    sharedLoop t (m :: rest) = (mountShares t m || sharedLoop t rest) := by
  cases m with
  | none => simp [sharedLoop, mountShares]
  | some mount =>
    simp only [sharedLoop, mountShares]
    by_cases hlen : mount.Source.length = 0
    · simp only [hlen, if_true, Bool.false_or]
    · simp only [hlen, if_false]
      cases hR : Rel (Clean mount.Source) t with
      | error e => simp
      | ok rel =>
        simp only []
        by_cases h1 : Clean rel = ['.']
        · simp [h1]
        · cases h2 : HasPrefix (Clean rel) ['.', '.'] <;> simp [h1]

/-- The loop of `isPathSharedWithMachine` returns true exactly when some entry of the
mount list makes the path shared. -/
theorem sharedLoop_eq_any (t : GoString) (mounts : List (Option Mount)) :
    sharedLoop t mounts = mounts.any (mountShares t) := by
  induction mounts with
  | nil => rfl
  | cons m rest ih => rw [sharedLoop_cons, List.any_cons, ih]

theorem isPathSharedWithMachine_eq_any (p : GoString) (mounts : List (Option Mount)) :
    isPathSharedWithMachine p mounts = mounts.any (mountShares (Clean p)) := by
  unfold isPathSharedWithMachine
  split_ifs with h
  · rw [List.length_eq_zero] at h
    subst h
    rfl
  · exact sharedLoop_eq_any (Clean p) mounts

theorem relLoop_append (bs : List GoString) (e : GoString) (rest : List GoString)
    (hbs : ∀ b ∈ bs, b ≠ []) :
    relLoop bs (bs ++ e :: rest) = ([], e :: rest, []) := by
  induction bs with
  | nil => rfl
  | cons b bs ih =>
    have hb : b ≠ [] := hbs b (List.mem_cons_self _ _)
    rw [List.cons_append, relLoop, restEmpty_cons b bs hb, restEmpty_cons b _ hb]
    simp only [Bool.or_self, Bool.false_eq_true, if_false, ne_eq, not_true_eq_false]
    exact ih (fun x hx => hbs x (List.mem_cons_of_mem _ hx))

theorem normalElems_suffix (rooted : Bool) (Sb T : List GoString)
    (h : normalElems rooted (Sb ++ T)) : normalElems false T := by
  obtain ⟨k, body, hS, hreal, _⟩ := h
  rcases List.append_eq_append_iff.1 hS with ⟨c, hrep, hT⟩ | ⟨a, _, hb⟩
  · refine ⟨c.length, body, ?_, hreal, fun hf => absurd hf (by decide)⟩
    rw [hT]
    congr 1
    rw [List.eq_replicate_iff]
    refine ⟨rfl, fun x hx => ?_⟩
    have : x ∈ List.replicate k ['.', '.'] := by rw [hrep]; exact List.mem_append_right _ hx
    exact List.eq_of_mem_replicate this
  · exact ⟨0, T, rfl, fun e he => hreal e (by rw [hb]; exact List.mem_append_right _ he),
      fun hf => absurd hf (by decide)⟩

theorem HasPrefix_Join_dotdot (e : GoString) (rest : List GoString) (he : e ≠ []) :
    HasPrefix (Join (e :: rest) ['/']) ['.', '.'] = HasPrefix e ['.', '.'] := by
  cases e with
  | nil => exact absurd rfl he
  | cons c1 cs =>
    cases cs with
    | nil =>
      cases rest with
      | nil => rw [Join_single]
      | cons e2 r => rw [Join_cons_cons]; simp [HasPrefix, List.isPrefixOf]
    | cons c2 cs =>
      cases rest with
      | nil => rw [Join_single]
      | cons e2 r => rw [Join_cons_cons]; simp [HasPrefix, List.isPrefixOf]

/-- From a cleaned root to a path whose elements are those of the root followed by `e`
and `rest`, `filepath.Rel` returns `e` and `rest`, joined. -/
theorem Rel_descendant (rooted : Bool) (Sb : List GoString) (e : GoString)
    (rest : List GoString) (hb : normalElems rooted Sb)
    (ht : normalElems rooted (Sb ++ e :: rest)) :
    Rel (render rooted Sb) (render rooted (Sb ++ e :: rest)) = .ok (Join (e :: rest) ['/']) := by
  have hSt : Sb ++ e :: rest ≠ [] := by simp
  have hne : render rooted (Sb ++ e :: rest) ≠ render rooted Sb := by
    intro hc
    have := congrArg pathElems hc
    rw [pathElems_render _ _ ht, pathElems_render _ _ hb] at this
    simp at this
  have hbne : ∀ b ∈ Sb, b ≠ [] := fun b hx => (normalElems_mem rooted Sb hb b hx).1
  have hloop : relLoop
      (Split (if render rooted Sb = ['.'] then [] else render rooted Sb) '/')
      (Split (render rooted (Sb ++ e :: rest)) '/') =
        (if Sb = [] then [[]] else [], e :: rest, []) := by
    cases rooted with
    | true =>
      have hdot : render true Sb ≠ ['.'] := by simp [render]
      rw [if_neg hdot, Split_render_true Sb hb, Split_render_true _ ht, if_neg hSt]
      by_cases hS : Sb = []
      · subst hS
        simp [relLoop, restEmpty]
      · rw [if_neg hS, if_neg hS]
        obtain ⟨b1, bs, hbs⟩ := List.exists_cons_of_ne_nil hS
        have : relLoop ([] :: Sb) ([] :: (Sb ++ e :: rest)) = relLoop Sb (Sb ++ e :: rest) := by
          rw [hbs]
          simp [relLoop, restEmpty]
        rw [this]
        exact relLoop_append Sb e rest hbne
    | false =>
      rw [Split_render_false _ ht hSt]
      by_cases hS : Sb = []
      · subst hS
        simp [render, Split_nil, relLoop, restEmpty]
      · rw [if_neg (render_false_ne_dot Sb hb hS), Split_render_false Sb hb hS, if_neg hS]
        exact relLoop_append Sb e rest hbne
  have hJ : Join (if Sb = [] then [[]] else []) ['/'] = [] := by
    split_ifs <;> rfl
  unfold Rel
  simp only [Clean_render _ _ hb, Clean_render _ _ ht, if_neg hne]
  have hslash : (HasPrefix (if render rooted Sb = ['.'] then [] else render rooted Sb) ['/'] !=
      HasPrefix (render rooted (Sb ++ e :: rest)) ['/']) = false := by
    have h1 : HasPrefix (render rooted (Sb ++ e :: rest)) ['/'] = rooted := IsAbs_render _ _ ht
    have h2 : HasPrefix (if render rooted Sb = ['.'] then [] else render rooted Sb) ['/'] =
        rooted := by
      by_cases hd : render rooted Sb = ['.']
      · rw [if_pos hd]
        have := IsAbs_render _ _ hb
        rw [hd] at this
        rw [← this]
        rfl
      · rw [if_neg hd]
        exact IsAbs_render _ _ hb
    rw [h1, h2]
    simp
  rw [hslash, hloop]
  simp [hJ]

/-- A mount entry with a non-empty source makes shared the source itself and every
lexical descendant of it whose first further element does not begin with two dots. -/
theorem mountShares_inside (p : GoString) (mount : Mount) (hsrc : mount.Source ≠ [])
    (h : Clean p = Clean mount.Source ∨
      (IsAbs (Clean mount.Source) = IsAbs (Clean p) ∧ ∃ e rest,
        pathElems (Clean p) = pathElems (Clean mount.Source) ++ e :: rest ∧
        HasPrefix e ['.', '.'] = false)) :
    mountShares (Clean p) (some mount) = true := by
  have hlen : ¬ mount.Source.length = 0 := by
    rwa [List.length_eq_zero]
  unfold mountShares
  simp only [hlen, if_false]
  rcases h with heq | ⟨hroot, e, rest, hel, hpre⟩
  · have : Rel (Clean mount.Source) (Clean p) = .ok ['.'] := by
      unfold Rel
      simp [Clean_idempotent, heq]
    rw [this]
    rfl
  · obtain ⟨Sb, hSb, hb⟩ := Clean_eq_render mount.Source
    obtain ⟨St, hSt, ht⟩ := Clean_eq_render p
    rw [IsAbs_Clean, IsAbs_Clean] at hroot
    rw [← hroot] at hSt ht
    rw [hb, ht, pathElems_render _ _ hSb, pathElems_render _ _ hSt] at hel
    subst hel
    rw [hb, ht, Rel_descendant _ Sb e rest hSb hSt]
    have hT := normalElems_suffix _ Sb (e :: rest) hSt
    have hrender : render false (e :: rest) = Join (e :: rest) ['/'] := by
      simp [render]
    have hclean : Clean (Join (e :: rest) ['/']) = Join (e :: rest) ['/'] := by
      rw [← hrender]
      exact Clean_render false _ hT
    have he : e ≠ [] := (normalElems_mem false _ hT e (List.mem_cons_self _ _)).1
    have hdot : Join (e :: rest) ['/'] ≠ ['.'] := by
      rw [← hrender]
      exact render_false_ne_dot _ hT (List.cons_ne_nil _ _)
    simp only [hclean, if_neg hdot, HasPrefix_Join_dotdot e rest he, hpre]
    rfl

/-- What the share test computes: an entry with a non-empty source makes a path shared
exactly when the cleaned path is the cleaned source, or is a lexical descendant of it
whose first further element does not begin with two dots. -/
theorem mountShares_iff (p : GoString) (mount : Mount) (hsrc : mount.Source ≠ []) :
    mountShares (Clean p) (some mount) = true ↔
      (Clean p = Clean mount.Source ∨
        (IsAbs (Clean mount.Source) = IsAbs (Clean p) ∧ ∃ e rest,
          pathElems (Clean p) = pathElems (Clean mount.Source) ++ e :: rest ∧
          HasPrefix e ['.', '.'] = false)) := by
  refine ⟨fun h => ?_, mountShares_inside p mount hsrc⟩
  by_cases heq : Clean p = Clean mount.Source
  · exact Or.inl heq
  right
  have hlen : ¬ mount.Source.length = 0 := by rwa [List.length_eq_zero]
  unfold mountShares at h
  simp only [hlen, if_false] at h
  cases hR : Rel (Clean mount.Source) (Clean p) with
  | error e => simp [hR] at h
  | ok rel =>
    simp only [hR] at h
    have hacc : Clean rel = ['.'] ∨ HasPrefix (Clean rel) ['.', '.'] = false := by
      by_cases h1 : Clean rel = ['.']
      · exact Or.inl h1
      · right
        cases h2 : HasPrefix (Clean rel) ['.', '.']
        · rfl
        · simp [h1, h2] at h
    rcases Rel_accepted mount.Source p rel hR hacc with h1 | ⟨hroot, hpre, hne⟩
    · exact absurd h1 heq
    · refine ⟨hroot, ?_⟩
      obtain ⟨T, hT⟩ := hpre
      cases T with
      | nil => exact absurd (by simpa using hT) hne
      | cons e rest =>
        refine ⟨e, rest, hT.symm, ?_⟩
        obtain ⟨Sb, hSb, hb⟩ := Clean_eq_render mount.Source
        obtain ⟨St, hSt, ht⟩ := Clean_eq_render p
        rw [IsAbs_Clean, IsAbs_Clean] at hroot
        rw [← hroot] at hSt ht
        rw [hb, ht, pathElems_render _ _ hSb, pathElems_render _ _ hSt] at hT
        subst hT
        rw [hb, ht, Rel_descendant _ Sb e rest hSb hSt] at hR
        have hrel : rel = Join (e :: rest) ['/'] := (Except.ok.inj hR).symm
        have hN := normalElems_suffix _ Sb (e :: rest) hSt
        have hrender : render false (e :: rest) = Join (e :: rest) ['/'] := by
          simp [render]
        have hclean : Clean rel = Join (e :: rest) ['/'] := by
          rw [hrel, ← hrender]
          exact Clean_render false _ hN
        have he : e ≠ [] := (normalElems_mem false _ hN e (List.mem_cons_self _ _)).1
        have hdot : Join (e :: rest) ['/'] ≠ ['.'] := by
          rw [← hrender]
          exact render_false_ne_dot _ hN (List.cons_ne_nil _ _)
        rcases hacc with h3 | h3
        · rw [hclean] at h3
          exact absurd h3 hdot
        · rw [hclean, HasPrefix_Join_dotdot e rest he] at h3
          exact h3

/-- The share test is right on every path inside a mount root except below an element
whose name begins with two dots: when the list has an entry with a non-empty source, the
cleaned path is the cleaned source or a lexical descendant of it, and the first further
element does not begin with `..`, `isPathSharedWithMachine` returns true. -/
theorem isPathSharedWithMachine_inside (p : GoString) (mounts : List (Option Mount))
    (mount : Mount) (hm : some mount ∈ mounts) (hsrc : mount.Source ≠ [])
    (h : Clean p = Clean mount.Source ∨
      (IsAbs (Clean mount.Source) = IsAbs (Clean p) ∧ ∃ e rest,
        pathElems (Clean p) = pathElems (Clean mount.Source) ++ e :: rest ∧
        HasPrefix e ['.', '.'] = false)) :
    isPathSharedWithMachine p mounts = true := by
  rw [isPathSharedWithMachine_eq_any, List.any_eq_true]
  exact ⟨some mount, hm, mountShares_inside p mount hsrc h⟩

/-! ## The share test at a name that begins with two dots -/

/-- C1 fails on the code: `/tmp/shared/..cache` cleans to the root `/tmp/shared`
followed by the one further element `..cache`, a lexical descendant of the root, and
`filepath.Rel` gives `..cache`; the test `strings.HasPrefix(rel, "..")` takes that
name for a step to the parent directory, and the path is reported as not shared. -/
theorem isPathSharedWithMachine_dotdot_name :
    Clean "/tmp/shared/..cache".toList = Clean "/tmp/shared".toList ++ "/..cache".toList ∧
      lexicalDescendant (Clean "/tmp/shared".toList) (Clean "/tmp/shared/..cache".toList) ∧
      Rel (Clean "/tmp/shared".toList) (Clean "/tmp/shared/..cache".toList) =
        .ok "..cache".toList ∧
      isPathSharedWithMachine "/tmp/shared/..cache".toList [some ⟨"/tmp/shared".toList⟩] =
        false :=
  ⟨by decide, by decide, by rfl, by decide⟩

/-! ## Normalization -/

theorem normalizeVolumeSource_ok (env : Env) (p q : GoString)
    (h : normalizeVolumeSource env p = .ok q) :
    (env.IsHostWinPath p = true ∧ q = Clean p) ∨
      (env.IsHostWinPath p = false ∧ IsAbs p = true ∧ q = Clean p) ∨
      (env.IsHostWinPath p = false ∧ IsAbs p = false ∧
        ∃ wd, env.Getwd = .ok wd ∧ q = filepathJoin [wd, p]) := by
  unfold normalizeVolumeSource at h
  cases hw : env.IsHostWinPath p
  · right
    cases ha : IsAbs p
    · right
      simp only [hw, ha, Bool.false_eq_true, if_false, Abs] at h
      cases hg : env.Getwd with
      | error e => simp [hg] at h
      | ok wd =>
        simp only [hg, Except.ok.injEq] at h
        exact ⟨rfl, rfl, wd, rfl, h.symm⟩
    · left
      simp only [hw, ha, Bool.false_eq_true, if_false, if_true, Except.ok.injEq] at h
      exact ⟨rfl, rfl, h.symm⟩
  · left
    simp only [hw, if_true, Except.ok.injEq] at h
    exact ⟨rfl, h.symm⟩

theorem filepathJoin_wd (wd p : GoString) (h : IsAbs wd = true) :
    filepathJoin [wd, p] = Clean (wd ++ '/' :: p) ∧ IsAbs (wd ++ '/' :: p) = true := by
  cases wd with
  | nil => simp [IsAbs, HasPrefix, List.isPrefixOf] at h
  | cons c cs =>
    constructor
    · simp [filepathJoin, List.dropWhile, Join_cons_cons, Join_single]
    · simpa [IsAbs, HasPrefix, List.isPrefixOf] using h

/-- What `normalizeVolumeSource` returns is the result of `filepath.Clean` on some path,
which is rooted unless the source is a host-style path. -/
theorem normalizeVolumeSource_clean (env : Env) (p q : GoString)
    (hwd : ∀ wd, env.Getwd = .ok wd → IsAbs wd = true)
    (h : normalizeVolumeSource env p = .ok q) :
    ∃ x, q = Clean x ∧ (env.IsHostWinPath p = false → IsAbs x = true) := by
  rcases normalizeVolumeSource_ok env p q h with ⟨hw, hq⟩ | ⟨_, ha, hq⟩ | ⟨_, _, wd, hg, hq⟩
  · exact ⟨p, hq, fun hf => by rw [hw] at hf; exact absurd hf (by decide)⟩
  · exact ⟨p, hq, fun _ => ha⟩
  · obtain ⟨h1, h2⟩ := filepathJoin_wd wd p (hwd wd hg)
    exact ⟨wd ++ '/' :: p, hq.trans h1, fun _ => h2⟩

/-- The segments of a cleaned rooted path are neither `.` nor `..`. -/
theorem Clean_rooted_segments (x : GoString) (hx : IsAbs x = true) :
    ∀ e ∈ Split (Clean x) '/', e ≠ ['.'] ∧ e ≠ ['.', '.'] := by
  obtain ⟨S, hS, hc⟩ := Clean_eq_render x
  rw [hx] at hS hc
  rw [hc, Split_render_true S hS]
  obtain ⟨k, body, hSb, hreal, hroot⟩ := hS
  have hk : k = 0 := hroot rfl
  subst hk
  simp only [List.replicate_zero, List.nil_append] at hSb
  subst hSb
  intro e he
  rcases List.mem_cons.1 he with h | h
  · subst h
    exact ⟨by decide, by decide⟩
  · by_cases hn : S = []
    · rw [if_pos hn, List.mem_singleton] at h
      subst h
      exact ⟨by decide, by decide⟩
    · rw [if_neg hn] at h
      exact ⟨(hreal e h).2.1, (hreal e h).2.2.1⟩

/-- C7, as stated, fails: the host-style path `C:/..` normalizes to `.`, its lexical
cleaning, and `.` normalizes to the working directory `/home/user`. -/
theorem normalizeVolumeSource_not_idempotent :
    normalizeVolumeSource hostEnv "C:/..".toList = .ok ".".toList ∧
      normalizeVolumeSource hostEnv ".".toList = .ok "/home/user".toList ∧
      normalizeVolumeSource hostEnv ".".toList ≠ .ok ".".toList := by
  refine ⟨by rfl, by rfl, ?_⟩
  have h : normalizeVolumeSource hostEnv ".".toList = .ok "/home/user".toList := by rfl
  rw [h]
  intro hc
  exact absurd (Except.ok.inj hc) (by decide)

/-- C7, amended: when the working directory is absolute and `normalizeVolumeSource`
succeeds on `p` with value `q`, where `p` is not a host-style path or `q` is itself a
host-style or an absolute path, `normalizeVolumeSource` succeeds on `q` and returns
`q`. -/
theorem normalizeVolumeSource_idempotent (env : Env) (p q : GoString)
    (hwd : ∀ wd, env.Getwd = .ok wd → IsAbs wd = true)
    (h : normalizeVolumeSource env p = .ok q)
    (hq : env.IsHostWinPath p = false ∨ env.IsHostWinPath q = true ∨ IsAbs q = true) :
    normalizeVolumeSource env q = .ok q := by
  obtain ⟨x, hx, habs⟩ := normalizeVolumeSource_clean env p q hwd h
  have hclean : Clean q = q := by rw [hx, Clean_idempotent]
  have hcases : env.IsHostWinPath q = true ∨ IsAbs q = true := by
    rcases hq with h1 | h1 | h1
    · right
      rw [hx, IsAbs_Clean]
      exact habs h1
    · exact Or.inl h1
    · exact Or.inr h1
  unfold normalizeVolumeSource
  rcases hcases with h1 | h1
  · rw [if_pos h1, hclean]
  · by_cases h2 : env.IsHostWinPath q = true
    · rw [if_pos h2, hclean]
    · rw [if_neg h2, if_pos h1, hclean]

theorem normalizeVolumeSource_idempotent_witness :
    normalizeVolumeSource hostEnv "/home/user/data".toList = .ok "/home/user/data".toList :=
  normalizeVolumeSource_idempotent hostEnv "./data/../data/".toList "/home/user/data".toList
    (by
      intro wd hg
      have : wd = "/home/user".toList := (Except.ok.inj hg).symm
      subst this
      decide)
    (by rfl) (Or.inl (by decide))

/-- C8, as stated, fails: the host-style path `C:/../..` normalizes to `..`, which is
not absolute and is a `..` segment. -/
theorem normalizeVolumeSource_not_absolute :
    normalizeVolumeSource hostEnv "C:/../..".toList = .ok "..".toList ∧
      IsAbs "..".toList = false ∧ "..".toList ∈ Split "..".toList '/' :=
  ⟨by rfl, by decide, by decide⟩

/-- C8, amended: when the working directory is absolute and `normalizeVolumeSource`
succeeds on `p` with value `q`, cleaning `q` again leaves it unchanged; and when `p` is
not a host-style path, `q` is absolute and none of its segments is `.` or `..`. -/
theorem normalizeVolumeSource_absolute_clean (env : Env) (p q : GoString)
    (hwd : ∀ wd, env.Getwd = .ok wd → IsAbs wd = true)
    (h : normalizeVolumeSource env p = .ok q) :
    Clean q = q ∧
      (env.IsHostWinPath p = false →
        IsAbs q = true ∧ ∀ e ∈ Split q '/', e ≠ ['.'] ∧ e ≠ ['.', '.']) := by
  obtain ⟨x, hx, habs⟩ := normalizeVolumeSource_clean env p q hwd h
  refine ⟨by rw [hx, Clean_idempotent], fun hw => ⟨?_, ?_⟩⟩
  · rw [hx, IsAbs_Clean]
    exact habs hw
  · rw [hx]
    exact Clean_rooted_segments x (habs hw)

theorem normalizeVolumeSource_absolute_clean_witness :
    Clean "/home/etc".toList = "/home/etc".toList ∧
      (hostEnv.IsHostWinPath "../etc/./".toList = false →
        IsAbs "/home/etc".toList = true ∧
          ∀ e ∈ Split "/home/etc".toList '/', e ≠ ['.'] ∧ e ≠ ['.', '.']) :=
  normalizeVolumeSource_absolute_clean hostEnv "../etc/./".toList "/home/etc".toList
    (by
      intro wd hg
      have : wd = "/home/user".toList := (Except.ok.inj hg).symm
      subst this
      decide)
    (by rfl)

/-! ## The collector -/

theorem collectStep_eq (env : Env) (mounts : List (Option Mount)) (st : collectState)
    (spec : GoString) :
    collectStep env mounts st spec =
      match unsharedSource env mounts spec with
      | none => st
      | some x => if x ∈ st.seen then st else ⟨st.unshared ++ [x], x :: st.seen⟩ := by
  unfold collectStep unsharedSource
  cases h2 : (extractBindMountSource env spec).2 <;> simp only [h2]
  · simp
  · cases hn : normalizeVolumeSource env (extractBindMountSource env spec).1 with
    | error e => simp
    | ok x =>
      cases hs : isPathSharedWithMachine x mounts <;> simp [hs]

theorem unsharedSource_eq_some (env : Env) (mounts : List (Option Mount))
    (spec x : GoString) :
    unsharedSource env mounts spec = some x ↔
      ∃ src, extractBindMountSource env spec = (src, true) ∧
        normalizeVolumeSource env src = .ok x ∧ isPathSharedWithMachine x mounts = false := by
  unfold unsharedSource
  constructor
  · intro h
    refine ⟨(extractBindMountSource env spec).1, ?_⟩
    cases h2 : (extractBindMountSource env spec).2
    · simp [h2] at h
    · simp only [h2, if_true] at h
      cases hn : normalizeVolumeSource env (extractBindMountSource env spec).1 with
      | error e => simp [hn] at h
      | ok y =>
        simp only [hn] at h
        cases hs : isPathSharedWithMachine y mounts
        · simp only [hs] at h
          have hy : y = x := by simpa using h
          subst hy
          exact ⟨Prod.ext rfl h2, rfl, hs⟩
        · simp [hs] at h
  · rintro ⟨src, he, hn, hs⟩
    simp [he, hn, hs]

/-- The loop invariant of the collector: `seen` holds exactly the paths of `unshared`,
and `unshared` holds no path twice. -/
theorem collect_invariant (env : Env) (mounts : List (Option Mount))
    (specs : List GoString) (st : collectState)
    (hseen : ∀ x, x ∈ st.seen ↔ x ∈ st.unshared) (hnd : st.unshared.Nodup) :
    (∀ x, x ∈ (specs.foldl (collectStep env mounts) st).seen ↔
        x ∈ (specs.foldl (collectStep env mounts) st).unshared) ∧
      (specs.foldl (collectStep env mounts) st).unshared.Nodup := by
  induction specs generalizing st with
  | nil => exact ⟨hseen, hnd⟩
  | cons spec rest ih =>
    rw [List.foldl_cons]
    apply ih
    · intro x
      rw [collectStep_eq]
      cases unsharedSource env mounts spec with
      | none => exact hseen x
      | some y =>
        by_cases hy : y ∈ st.seen
        · simpa [hy] using hseen x
        · simp only [hy, if_false, List.mem_cons, List.mem_append, List.mem_singleton]
          rw [hseen x]
          tauto
    · rw [collectStep_eq]
      cases unsharedSource env mounts spec with
      | none => exact hnd
      | some y =>
        by_cases hy : y ∈ st.seen
        · simpa [hy] using hnd
        · simp only [hy, if_false]
          have hy2 : y ∉ st.unshared := fun h => hy ((hseen y).2 h)
          exact List.Nodup.append hnd (List.nodup_singleton y) (by simpa using hy2)

/-- Where the paths of the collector come from. -/
theorem collect_mem (env : Env) (mounts : List (Option Mount))
    (specs : List GoString) (st : collectState) (x : GoString)
    (hseen : ∀ y, y ∈ st.seen ↔ y ∈ st.unshared) :
    x ∈ (specs.foldl (collectStep env mounts) st).unshared ↔
      x ∈ st.unshared ∨ ∃ s ∈ specs, unsharedSource env mounts s = some x := by
  induction specs generalizing st with
  | nil => simp
  | cons spec rest ih =>
    rw [List.foldl_cons, ih]
    · rw [collectStep_eq]
      cases hu : unsharedSource env mounts spec with
      | none => simp [hu]
      | some y =>
        by_cases hy : y ∈ st.seen
        · have hy2 : y ∈ st.unshared := (hseen y).1 hy
          simp only [hy, if_true, List.mem_cons, exists_eq_or_imp, hu, Option.some.injEq]
          constructor
          · rintro (h | h)
            · exact Or.inl h
            · exact Or.inr (Or.inr h)
          · rintro (h | h | h)
            · exact Or.inl h
            · exact Or.inl (h ▸ hy2)
            · exact Or.inr h
        · simp only [hy, if_false, List.mem_cons, exists_eq_or_imp, hu, Option.some.injEq]
          rw [List.mem_append, List.mem_singleton]
          constructor
          · rintro ((h | h) | h)
            · exact Or.inl h
            · exact Or.inr (Or.inl h.symm)
            · exact Or.inr (Or.inr h)
          · rintro (h | h | h)
            · exact Or.inl (Or.inl h)
            · exact Or.inl (Or.inr h.symm)
            · exact Or.inr h
    · intro z
      rw [collectStep_eq]
      cases unsharedSource env mounts spec with
      | none => exact hseen z
      | some y =>
        by_cases hy : y ∈ st.seen
        · simpa [hy] using hseen z
        · simp only [hy, if_false, List.mem_cons, List.mem_append, List.mem_singleton]
          rw [hseen z]
          tauto

/-- C4: the sequence returned by `collectUnsharedHostPaths` holds no string twice, whatever
the specs and the mounts: a path it reports is reported exactly once, also when several
specs have the same source. -/
theorem collectUnsharedHostPaths_nodup (env : Env) (specs : List GoString)
    (mounts : List (Option Mount)) :
    (collectUnsharedHostPaths env specs mounts).Nodup ∧
      ∀ x ∈ collectUnsharedHostPaths env specs mounts,
        (collectUnsharedHostPaths env specs mounts).count x = 1 := by
  have hnd : (collectUnsharedHostPaths env specs mounts).Nodup :=
    (collect_invariant env mounts specs ⟨[], []⟩ (fun _ => Iff.rfl) List.nodup_nil).2
  refine ⟨hnd, fun x hx => ?_⟩
  have h := List.count_eq_one_of_mem hnd hx
  convert h

theorem collectUnsharedHostPaths_nodup_witness :
    (collectUnsharedHostPaths hostEnv ["/x:/a".toList, "/x:/b".toList] []).count "/x".toList = 1 :=
  (collectUnsharedHostPaths_nodup hostEnv ["/x:/a".toList, "/x:/b".toList] []).2
    "/x".toList (by decide)

/-- Where the reported paths come from: every path `x` returned by
`collectUnsharedHostPaths` comes from a spec `s` of the input that
`extractBindMountSource` accepts with a source `src`, whose source
`normalizeVolumeSource` resolves to `x`, and for which `isPathSharedWithMachine` returns
false. -/
theorem collectUnsharedHostPaths_sound (env : Env) (specs : List GoString)
    (mounts : List (Option Mount)) (x : GoString)
    (hx : x ∈ collectUnsharedHostPaths env specs mounts) :
    ∃ s ∈ specs, ∃ src, extractBindMountSource env s = (src, true) ∧
      normalizeVolumeSource env src = .ok x ∧ isPathSharedWithMachine x mounts = false := by
  unfold collectUnsharedHostPaths at hx
  rw [collect_mem env mounts specs ⟨[], []⟩ x (fun _ => Iff.rfl)] at hx
  rcases hx with h | ⟨s, hs, hu⟩
  · exact absurd h (List.not_mem_nil x)
  · exact ⟨s, hs, (unsharedSource_eq_some env mounts s x).1 hu⟩

/-- C6: no unshared bind-mount source is omitted: when a spec `s` of the input is accepted
by `extractBindMountSource` with source `src`, `src` normalizes to `x` and
`isPathSharedWithMachine` finds `x` unshared, then `x` is in the result of
`collectUnsharedHostPaths`. -/
theorem collectUnsharedHostPaths_complete (env : Env) (specs : List GoString)
    (mounts : List (Option Mount)) (s src x : GoString) (hs : s ∈ specs)
    (he : extractBindMountSource env s = (src, true))
    (hn : normalizeVolumeSource env src = .ok x)
    (hu : isPathSharedWithMachine x mounts = false) :
    x ∈ collectUnsharedHostPaths env specs mounts := by
  unfold collectUnsharedHostPaths
  rw [collect_mem env mounts specs ⟨[], []⟩ x (fun _ => Iff.rfl)]
  exact Or.inr ⟨s, hs, (unsharedSource_eq_some env mounts s x).2 ⟨src, he, hn, hu⟩⟩

theorem collectUnsharedHostPaths_complete_witness :
    "/home/user/data".toList ∈ collectUnsharedHostPaths hostEnv
      ["/tmp/shared/a:/a".toList, "./data:/d".toList] [some ⟨"/tmp/shared".toList⟩] :=
  collectUnsharedHostPaths_complete hostEnv _ [some ⟨"/tmp/shared".toList⟩]
    "./data:/d".toList "./data".toList "/home/user/data".toList
    (by decide) (by decide) (by rfl) (by decide)

/-- C5 fails on the code: for the spec `/tmp/shared/..cache:/c` and the mount
`/tmp/shared` the collector returns `/tmp/shared/..cache`, although that path is a
lexical descendant of the mount source.  The spec passes the three tests of the loop;
the third, `isPathSharedWithMachine`, returns false on a descendant, as in C1. -/
theorem collectUnsharedHostPaths_reports_descendant :
    collectUnsharedHostPaths hostEnv ["/tmp/shared/..cache:/c".toList]
        [some ⟨"/tmp/shared".toList⟩] = ["/tmp/shared/..cache".toList] ∧
      extractBindMountSource hostEnv "/tmp/shared/..cache:/c".toList =
        ("/tmp/shared/..cache".toList, true) ∧
      normalizeVolumeSource hostEnv "/tmp/shared/..cache".toList =
        .ok "/tmp/shared/..cache".toList ∧
      lexicalDescendant (Clean "/tmp/shared".toList) "/tmp/shared/..cache".toList :=
  ⟨by decide, by decide, by rfl, by decide⟩

/-! ## The order of strings -/

theorem stringLE_total (a b : GoString) : stringLE a b ∨ stringLE b a := by
  unfold stringLE
  induction a generalizing b with
  | nil => cases b <;> simp [stringLess]
  | cons x xs ih =>
    cases b with
    | nil => simp [stringLess]
    | cons y ys =>
      simp only [stringLess]
      by_cases h1 : x.toNat < y.toNat
      · have h2 : ¬ y.toNat < x.toNat := by omega
        simp [h1, h2]
      · by_cases h2 : y.toNat < x.toNat
        · simp [h1, h2]
        · simp only [h1, h2, if_false]
          exact ih ys

theorem stringLE_trans (a b c : GoString) (hab : stringLE a b) (hbc : stringLE b c) :
    stringLE a c := by
  unfold stringLE at *
  induction a generalizing b c with
  | nil => cases c <;> simp [stringLess]
  | cons x xs ih =>
    cases b with
    | nil => simp [stringLess] at hab
    | cons y ys =>
      cases c with
      | nil => simp [stringLess] at hbc
      | cons z zs =>
        simp only [stringLess] at hab hbc ⊢
        by_cases h1 : y.toNat < x.toNat
        · simp [h1] at hab
        · by_cases h2 : z.toNat < y.toNat
          · simp [h2] at hbc
          · by_cases h3 : x.toNat < y.toNat
            · have h4 : ¬ z.toNat < x.toNat := by omega
              have h5 : x.toNat < z.toNat := by omega
              simp [h4, h5]
            · by_cases h6 : y.toNat < z.toNat
              · have h4 : ¬ z.toNat < x.toNat := by omega
                have h5 : x.toNat < z.toNat := by omega
                simp [h4, h5]
              · have h4 : ¬ z.toNat < x.toNat := by omega
                have h5 : ¬ x.toNat < z.toNat := by omega
                simp only [h1, h2, h3, h6, if_false] at hab hbc
                simp only [h4, h5, if_false]
                exact ih ys zs hab hbc

/-! ## The claims on the collector and on the parser -/

/-- C3, as stated, fails: on the specs `/b:/x`, `/a:/y` and no mounts the collector
returns `/b`, `/a`, the order of the input, which is not ascending. -/
theorem collectUnsharedHostPaths_not_sorted :
    collectUnsharedHostPaths hostEnv ["/b:/x".toList, "/a:/y".toList] [] =
        ["/b".toList, "/a".toList] ∧
      ¬ List.Sorted stringLE
        (collectUnsharedHostPaths hostEnv ["/b:/x".toList, "/a:/y".toList] []) := by
  decide

/-- The function sort.Strings returns its argument in ascending order, with the same
entries. -/
theorem sortStrings_sorted (l : List GoString) :
    List.Sorted stringLE (sortStrings l) ∧ (sortStrings l).Perm l :=
  haveI : IsTotal GoString stringLE := ⟨stringLE_total⟩
  haveI : IsTrans GoString stringLE := ⟨stringLE_trans⟩
  ⟨List.sorted_insertionSort stringLE _, List.perm_insertionSort stringLE _⟩

/-- C9: a spec whose first field does not start with `/` or `.` and is not a host-style
path (a named volume such as `myvol:/ctr`) is rejected by `extractBindMountSource`, and
adding it to a spec list or removing it from one, at any position, leaves the result of
`collectUnsharedHostPaths` unchanged. -/
theorem named_volume_never_reported (env : Env) (spec : GoString)
    (h : ∀ src, (env.SplitVolumeString spec).head? = some src →
      HasPrefix src ['/'] = false ∧ HasPrefix src ['.'] = false ∧
        env.IsHostWinPath src = false) :
    extractBindMountSource env spec = ([], false) ∧
      ∀ (before after : List GoString) (mounts : List (Option Mount)),
        collectUnsharedHostPaths env (before ++ spec :: after) mounts =
          collectUnsharedHostPaths env (before ++ after) mounts := by
  have hrej : extractBindMountSource env spec = ([], false) := by
    unfold extractBindMountSource
    cases hp : env.SplitVolumeString spec with
    | nil => simp
    | cons src rest =>
      obtain ⟨h1, h2, h3⟩ := h src (by simp [hp])
      simp [h1, h2, h3]
  refine ⟨hrej, ?_⟩
  intro before after mounts
  have hstep : ∀ st, collectStep env mounts st spec = st := by
    intro st
    simp [collectStep, hrej]
  unfold collectUnsharedHostPaths
  rw [List.foldl_append, List.foldl_cons, hstep, List.foldl_append]

theorem named_volume_never_reported_witness :
    extractBindMountSource hostEnv "namedVolume:/ctr".toList = ([], false) ∧
      ∀ (before after : List GoString) (mounts : List (Option Mount)),
        collectUnsharedHostPaths hostEnv (before ++ "namedVolume:/ctr".toList :: after) mounts =
          collectUnsharedHostPaths hostEnv (before ++ after) mounts :=
  named_volume_never_reported hostEnv "namedVolume:/ctr".toList (by
    intro src hsrc
    have hs : src = "namedVolume".toList := by
      have : (hostEnv.SplitVolumeString "namedVolume:/ctr".toList).head? =
          some "namedVolume".toList := by decide
      rw [this] at hsrc
      exact (Option.some.inj hsrc).symm
    subst hs
    decide)

/-- C10: `extractBindMountSource` accepts exactly when the split of the spec has at least
two fields, the first field is not empty, and the first field starts with `/`, starts
with `.` or is a host-style path; when it accepts it returns the first field, and in
every other case it returns the empty string with `false`. -/
theorem extractBindMountSource_accepts_iff (env : Env) (spec : GoString) :
    ((extractBindMountSource env spec).2 = true ↔
        2 ≤ (env.SplitVolumeString spec).length ∧
          (env.SplitVolumeString spec).headD [] ≠ [] ∧
          (HasPrefix ((env.SplitVolumeString spec).headD []) ['/'] = true ∨
            HasPrefix ((env.SplitVolumeString spec).headD []) ['.'] = true ∨
            env.IsHostWinPath ((env.SplitVolumeString spec).headD []) = true)) ∧
      ((extractBindMountSource env spec).2 = true →
        (extractBindMountSource env spec).1 = (env.SplitVolumeString spec).headD []) ∧
      ((extractBindMountSource env spec).2 = false →
        extractBindMountSource env spec = ([], false)) := by
  unfold extractBindMountSource
  generalize env.SplitVolumeString spec = parts
  generalize hsrc : parts.headD [] = src
  simp only []
  rw [hsrc]
  by_cases hlen : parts.length ≤ 1
  · have h2 : ¬ 2 ≤ parts.length := by omega
    simp [hlen, h2]
  · have h2 : 2 ≤ parts.length := by omega
    cases src with
    | nil => simp [hlen]
    | cons c cs =>
      cases ha : HasPrefix (c :: cs) ['/'] <;> cases hb : HasPrefix (c :: cs) ['.'] <;>
        cases hc : env.IsHostWinPath (c :: cs) <;> simp [hlen, h2]

/-! ## The share test over the mount list -/

theorem mountShares_unusable (t : GoString) (m : Option Mount) (h : usableMount m = false) :
    mountShares t m = false := by
  cases m with
  | none => rfl
  | some mount =>
    have hsrc : mount.Source = [] := by simpa [usableMount] using h
    simp [mountShares, hsrc]

theorem any_mountShares_filter (t : GoString) (mounts : List (Option Mount)) :
    (mounts.filter usableMount).any (mountShares t) = mounts.any (mountShares t) := by
  induction mounts with
  | nil => rfl
  | cons m rest ih =>
    cases hm : usableMount m
    · rw [List.filter_cons_of_neg (by simp [hm]), List.any_cons, ih,
        mountShares_unusable t m hm, Bool.false_or]
    · rw [List.filter_cons_of_pos hm, List.any_cons, List.any_cons, ih]

/-- C11: with an empty mount list `isPathSharedWithMachine` returns false for every path,
and `collectUnsharedHostPaths` then reports exactly the normalized sources of the specs
that `extractBindMountSource` accepts and `normalizeVolumeSource` resolves. -/
theorem isPathSharedWithMachine_no_mounts (env : Env) (specs : List GoString) :
    (∀ p, isPathSharedWithMachine p [] = false) ∧
      ∀ x, x ∈ collectUnsharedHostPaths env specs [] ↔
        ∃ s ∈ specs, ∃ src, extractBindMountSource env s = (src, true) ∧
          normalizeVolumeSource env src = .ok x := by
  refine ⟨fun _ => rfl, fun x => ?_⟩
  unfold collectUnsharedHostPaths
  rw [collect_mem env [] specs ⟨[], []⟩ x (fun _ => Iff.rfl)]
  constructor
  · rintro (h | ⟨s, hs, hu⟩)
    · exact absurd h (List.not_mem_nil x)
    · obtain ⟨src, he, hn, _⟩ := (unsharedSource_eq_some env [] s x).1 hu
      exact ⟨s, hs, src, he, hn⟩
  · rintro ⟨s, hs, src, he, hn⟩
    exact Or.inr ⟨s, hs, (unsharedSource_eq_some env [] s x).2 ⟨src, he, hn, rfl⟩⟩

theorem isPathSharedWithMachine_no_mounts_witness :
    "/home/user/rel".toList ∈
      collectUnsharedHostPaths hostEnv ["vol:/v".toList, "./rel:/r".toList] [] :=
  ((isPathSharedWithMachine_no_mounts hostEnv ["vol:/v".toList, "./rel:/r".toList]).2
    "/home/user/rel".toList).2
    ⟨"./rel:/r".toList, by decide, "./rel".toList, by decide, by rfl⟩

/-- C18: a path is shared with the concatenation of two mount lists exactly when it is
shared with one of them; so the answer is the same for every permutation of the mount
list, and a path that is shared stays shared when entries are added before or after. -/
theorem isPathSharedWithMachine_append (p : GoString) (m1 m2 : List (Option Mount)) :
    isPathSharedWithMachine p (m1 ++ m2) =
        (isPathSharedWithMachine p m1 || isPathSharedWithMachine p m2) ∧
      (m1.Perm m2 → isPathSharedWithMachine p m1 = isPathSharedWithMachine p m2) ∧
      (isPathSharedWithMachine p m1 = true →
        isPathSharedWithMachine p (m1 ++ m2) = true ∧
          isPathSharedWithMachine p (m2 ++ m1) = true) := by
  refine ⟨?_, fun hperm => ?_, fun h => ?_⟩
  · rw [isPathSharedWithMachine_eq_any, isPathSharedWithMachine_eq_any,
      isPathSharedWithMachine_eq_any, List.any_append]
  · rw [isPathSharedWithMachine_eq_any, isPathSharedWithMachine_eq_any, Bool.eq_iff_iff,
      List.any_eq_true, List.any_eq_true]
    exact ⟨fun ⟨m, hm, hs⟩ => ⟨m, hperm.mem_iff.1 hm, hs⟩,
      fun ⟨m, hm, hs⟩ => ⟨m, hperm.mem_iff.2 hm, hs⟩⟩
  · rw [isPathSharedWithMachine_eq_any] at h
    rw [isPathSharedWithMachine_eq_any, isPathSharedWithMachine_eq_any, List.any_append,
      List.any_append, h]
    simp

theorem isPathSharedWithMachine_append_witness :
    isPathSharedWithMachine "/srv/data/x".toList
        [some ⟨"/srv/data".toList⟩, some ⟨"/tmp".toList⟩] =
      isPathSharedWithMachine "/srv/data/x".toList
        [some ⟨"/tmp".toList⟩, some ⟨"/srv/data".toList⟩] :=
  (isPathSharedWithMachine_append "/srv/data/x".toList
    [some ⟨"/srv/data".toList⟩, some ⟨"/tmp".toList⟩]
    [some ⟨"/tmp".toList⟩, some ⟨"/srv/data".toList⟩]).2.1
    (List.Perm.swap _ _ [])

/-- C20: entries of the mount list that are nil or have an empty `Source` never make a
path shared: `isPathSharedWithMachine` gives the same answer on the mount list and on the
list with those entries removed, and it returns false when every entry is such. -/
theorem isPathSharedWithMachine_usable (p : GoString) (mounts : List (Option Mount)) :
    isPathSharedWithMachine p mounts =
        isPathSharedWithMachine p (mounts.filter usableMount) ∧
      ((∀ m ∈ mounts, usableMount m = false) → isPathSharedWithMachine p mounts = false) := by
  simp only [isPathSharedWithMachine_eq_any]
  refine ⟨(any_mountShares_filter (Clean p) mounts).symm, fun h => ?_⟩
  rw [List.any_eq_false]
  intro m hm
  rw [mountShares_unusable (Clean p) m (h m hm)]
  simp

theorem isPathSharedWithMachine_usable_witness :
    isPathSharedWithMachine ".".toList [none, some ⟨[]⟩, none] = false :=
  (isPathSharedWithMachine_usable ".".toList [none, some ⟨[]⟩, none]).2 (by decide)

/-! ## The outcomes of normalization -/

theorem filepathJoin_clean (wd p : GoString) (h : wd ≠ []) :
    filepathJoin [wd, p] = Clean (wd ++ '/' :: p) := by
  cases wd with
  | nil => exact absurd rfl h
  | cons c cs => simp [filepathJoin, List.dropWhile, Join_cons_cons, Join_single]

/-- C12: `normalizeVolumeSource` returns an error exactly when the path is neither a
host-style nor an absolute path and the lookup of the working directory fails, and the
error is that of the lookup; on a host-style or an absolute path it returns the cleaned
path; on every other path, with the working directory `cwd`, it returns
`filepath.Join(cwd, path)`, which is its own cleaned form when `cwd` is not the empty
string. -/
theorem normalizeVolumeSource_outcomes (env : Env) (p : GoString) :
    (∀ err, normalizeVolumeSource env p = .error err ↔
        (env.IsHostWinPath p = false ∧ IsAbs p = false ∧ env.Getwd = .error err)) ∧
      ((env.IsHostWinPath p = true ∨ IsAbs p = true) →
        normalizeVolumeSource env p = .ok (Clean p)) ∧
      (∀ cwd, env.IsHostWinPath p = false → IsAbs p = false → env.Getwd = .ok cwd →
        normalizeVolumeSource env p = .ok (filepathJoin [cwd, p]) ∧
          (cwd ≠ [] → normalizeVolumeSource env p = .ok (Clean (filepathJoin [cwd, p])))) := by
  refine ⟨fun err => ?_, fun h => ?_, fun cwd hw ha hg => ⟨?_, fun hne => ?_⟩⟩
  · unfold normalizeVolumeSource Abs
    cases hw : env.IsHostWinPath p <;> cases ha : IsAbs p <;> cases hg : env.Getwd <;> simp
  · unfold normalizeVolumeSource
    rcases h with h | h
    · rw [if_pos h]
    · by_cases hw : env.IsHostWinPath p = true
      · rw [if_pos hw]
      · rw [if_neg hw, if_pos h]
  · unfold normalizeVolumeSource Abs
    simp only [hw, ha, hg, Bool.false_eq_true, if_false]
  · unfold normalizeVolumeSource Abs
    simp only [hw, ha, hg, Bool.false_eq_true, if_false]
    rw [filepathJoin_clean cwd p hne, Clean_idempotent]

theorem normalizeVolumeSource_outcomes_witness :
    normalizeVolumeSource hostEnv "../etc".toList =
      .ok (Clean (filepathJoin ["/home/user".toList, "../etc".toList])) :=
  ((normalizeVolumeSource_outcomes hostEnv "../etc".toList).2.2 "/home/user".toList
    (by decide) (by decide) (by rfl)).2 (by decide)

/-! ## The collector on specs it skips -/

/-- C14: a source that fails to normalize is skipped and the collection goes on: when
`extractBindMountSource` accepts a spec and `normalizeVolumeSource` returns an error on
its source, the result of `collectUnsharedHostPaths` on a list with that spec, at any
position, is its result on the list without it.  The collector is a total function: it
returns a list on every input. -/
theorem collectUnsharedHostPaths_skips_failure (env : Env) (spec src err : GoString)
    (he : extractBindMountSource env spec = (src, true))
    (hn : normalizeVolumeSource env src = .error err) :
    ∀ (before after : List GoString) (mounts : List (Option Mount)),
      collectUnsharedHostPaths env (before ++ spec :: after) mounts =
        collectUnsharedHostPaths env (before ++ after) mounts := by
  intro before after mounts
  have hstep : ∀ st, collectStep env mounts st spec = st := by
    intro st
    simp [collectStep, he, hn]
  unfold collectUnsharedHostPaths
  rw [List.foldl_append, List.foldl_cons, hstep, List.foldl_append]

theorem collectUnsharedHostPaths_skips_failure_witness :
    collectUnsharedHostPaths lostEnv
        (["/a:/x".toList] ++ "./rel:/r".toList :: ["/b:/y".toList]) [] =
      collectUnsharedHostPaths lostEnv (["/a:/x".toList] ++ ["/b:/y".toList]) [] :=
  collectUnsharedHostPaths_skips_failure lostEnv "./rel:/r".toList "./rel".toList
    "getwd: no such file or directory".toList (by decide) (by rfl)
    ["/a:/x".toList] ["/b:/y".toList] []

/-! ## The warning -/

/-- C17: in each bypass condition `WarnIfMachineVolumesUnavailable` logs no warning,
whatever the volume specs and the mounts of the machine: the spec list is empty, the
configuration is nil or not in machine mode, the connection URI is empty or does not
parse, the machine lookup fails, or the provider of the machine is of type WSL. -/
theorem WarnIfMachineVolumesUnavailable_bypass (env : Env) (menv : MachineEnv)
    (volumeSpecs : List GoString)
    (h : volumeSpecs = [] ∨ menv.PodmanConfig = none ∨
      ∃ cfg, menv.PodmanConfig = some cfg ∧
        (cfg.MachineMode = false ∨ cfg.URI = [] ∨
          (∃ err, menv.ParseURI cfg.URI = .error err) ∨
          ∃ parsedURI, menv.ParseURI cfg.URI = .ok parsedURI ∧
            ((∃ err, menv.FindMachineByPort cfg.URI parsedURI = .error err) ∨
              ∃ machineConfig,
                menv.FindMachineByPort cfg.URI parsedURI = .ok (machineConfig, true)))) :
    WarnIfMachineVolumesUnavailable env menv volumeSpecs = [] := by
  unfold WarnIfMachineVolumesUnavailable
  rcases h with h | h | ⟨cfg, hc, h⟩
  · simp [h]
  · simp [h]
  · rcases h with h | h | ⟨err, h⟩ | ⟨u, hp, ⟨err, h⟩ | ⟨mc, h⟩⟩
    · simp [hc, h]
    · simp [hc, h]
    · simp [hc, h]
    · simp [hc, hp, h]
    · simp [hc, hp, h]

theorem WarnIfMachineVolumesUnavailable_bypass_witness :
    WarnIfMachineVolumesUnavailable hostEnv
      ⟨some ⟨true, "ssh://core@127.0.0.1:2222".toList⟩, fun u => .ok u,
        fun _ _ => .ok (⟨[]⟩, true)⟩
      ["/tmp/other:/f".toList] = [] :=
  WarnIfMachineVolumesUnavailable_bypass hostEnv _ _
    (Or.inr (Or.inr ⟨⟨true, "ssh://core@127.0.0.1:2222".toList⟩, rfl,
      Or.inr (Or.inr (Or.inr ⟨"ssh://core@127.0.0.1:2222".toList, rfl,
        Or.inr ⟨⟨[]⟩, rfl⟩⟩))⟩))

/-- C16: when no bypass condition holds, `WarnIfMachineVolumesUnavailable` logs no
warning if `collectUnsharedHostPaths` returns the empty list, and otherwise logs exactly
one warning: the lead-in sentence, the paths of the collector in ascending order, each
once, joined by a comma and a blank, and the sentence with the documentation URL. -/
theorem WarnIfMachineVolumesUnavailable_warning (env : Env) (menv : MachineEnv)
    (volumeSpecs : List GoString) (cfg : PodmanConfig) (parsedURI : GoString)
    (machineConfig : MachineConfig)
    (hs : volumeSpecs ≠ []) (hc : menv.PodmanConfig = some cfg)
    (hm : cfg.MachineMode = true) (hu : cfg.URI ≠ [])
    (hp : menv.ParseURI cfg.URI = .ok parsedURI)
    (hf : menv.FindMachineByPort cfg.URI parsedURI = .ok (machineConfig, false)) :
    (collectUnsharedHostPaths env volumeSpecs machineConfig.Mounts = [] →
        WarnIfMachineVolumesUnavailable env menv volumeSpecs = []) ∧
      (collectUnsharedHostPaths env volumeSpecs machineConfig.Mounts ≠ [] →
        WarnIfMachineVolumesUnavailable env menv volumeSpecs =
          ["The following bind mount sources are not shared with the Podman machine and may not work: ".toList
            ++ Join (sortStrings (collectUnsharedHostPaths env volumeSpecs machineConfig.Mounts))
              ", ".toList
            ++ ". See ".toList ++ machineVolumesDocURL
            ++ " for details on configuring machine volumes.".toList]) ∧
      List.Sorted stringLE
        (sortStrings (collectUnsharedHostPaths env volumeSpecs machineConfig.Mounts)) ∧
      (sortStrings (collectUnsharedHostPaths env volumeSpecs machineConfig.Mounts)).Nodup ∧
      (sortStrings (collectUnsharedHostPaths env volumeSpecs machineConfig.Mounts)).Perm
        (collectUnsharedHostPaths env volumeSpecs machineConfig.Mounts) := by
  have hlen : ¬ volumeSpecs.length = 0 := by rwa [List.length_eq_zero]
  have hulen : ¬ cfg.URI.length = 0 := by rwa [List.length_eq_zero]
  have hperm : (sortStrings (collectUnsharedHostPaths env volumeSpecs machineConfig.Mounts)).Perm
      (collectUnsharedHostPaths env volumeSpecs machineConfig.Mounts) :=
    List.perm_insertionSort stringLE _
  have hnd : (collectUnsharedHostPaths env volumeSpecs machineConfig.Mounts).Nodup :=
    (collect_invariant env machineConfig.Mounts volumeSpecs ⟨[], []⟩ (fun _ => Iff.rfl)
      List.nodup_nil).2
  haveI : IsTotal GoString stringLE := ⟨stringLE_total⟩
  haveI : IsTrans GoString stringLE := ⟨stringLE_trans⟩
  refine ⟨fun h0 => ?_, fun h1 => ?_, List.sorted_insertionSort stringLE _,
    hperm.nodup_iff.2 hnd, hperm⟩
  · unfold WarnIfMachineVolumesUnavailable
    simp [hlen, hc, hm, hulen, hp, hf, h0]
  · have h1len : ¬ (collectUnsharedHostPaths env volumeSpecs machineConfig.Mounts).length = 0 := by
      rwa [List.length_eq_zero]
    unfold WarnIfMachineVolumesUnavailable
    simp only [hlen, hc, hm, hulen, hp, hf, h1len, if_false, Bool.not_true, Bool.false_eq_true]
    rfl

theorem WarnIfMachineVolumesUnavailable_warning_witness :
    WarnIfMachineVolumesUnavailable hostEnv
        ⟨some ⟨true, "ssh://core@127.0.0.1:2222".toList⟩, fun u => .ok u,
          fun _ _ => .ok (⟨[some ⟨"/tmp/shared".toList⟩]⟩, false)⟩
        ["/srv/b:/x".toList, "/tmp/shared/n:/n".toList, "/srv/a:/y".toList] =
      ["The following bind mount sources are not shared with the Podman machine and may not work: /srv/a, /srv/b. See https://docs.podman.io/en/latest/markdown/podman-machine-init.1.html#volume for details on configuring machine volumes.".toList] :=
  ((WarnIfMachineVolumesUnavailable_warning hostEnv
    ⟨some ⟨true, "ssh://core@127.0.0.1:2222".toList⟩, fun u => .ok u,
      fun _ _ => .ok (⟨[some ⟨"/tmp/shared".toList⟩]⟩, false)⟩
    ["/srv/b:/x".toList, "/tmp/shared/n:/n".toList, "/srv/a:/y".toList]
    ⟨true, "ssh://core@127.0.0.1:2222".toList⟩ "ssh://core@127.0.0.1:2222".toList
    ⟨[some ⟨"/tmp/shared".toList⟩]⟩
    (by decide) rfl rfl (by decide) rfl rfl).2.1 (by decide)).trans (by rfl)

/-! ## The order of the collector's result -/

theorem filterMap_unsharedSource (env : Env) (mounts : List (Option Mount))
    (specs : List GoString) :
    specs.filterMap (unsharedSource env mounts) =
      (specs.filterMap (normalizedSource env)).filter
        (fun x => !isPathSharedWithMachine x mounts) := by
  induction specs with
  | nil => rfl
  | cons s rest ih =>
    have hrel : unsharedSource env mounts s =
        (normalizedSource env s).bind
          (fun x => if isPathSharedWithMachine x mounts then none else some x) := by
      unfold unsharedSource normalizedSource
      cases h2 : (extractBindMountSource env s).2 <;> simp only [h2]
      · simp
      · cases hn : normalizeVolumeSource env (extractBindMountSource env s).1 <;> simp
    cases hn : normalizedSource env s with
    | none =>
      rw [hn] at hrel
      rw [List.filterMap_cons_none hrel, List.filterMap_cons_none hn, ih]
    | some x =>
      rw [hn, Option.some_bind] at hrel
      rw [List.filterMap_cons_some hn]
      cases hs : isPathSharedWithMachine x mounts
      · simp only [hs, Bool.false_eq_true, if_false] at hrel
        rw [List.filterMap_cons_some hrel, List.filter_cons_of_pos (by simp [hs]), ih]
      · simp only [hs, if_true] at hrel
        rw [List.filterMap_cons_none hrel, List.filter_cons_of_neg (by simp [hs]), ih]

/-- From any state of the loop, the collector appends, in their order, the first
occurrences of the paths the remaining specs contribute and that it has not yet seen. -/
theorem collect_unshared_eq (env : Env) (mounts : List (Option Mount))
    (specs : List GoString) (st : collectState)
    (hseen : ∀ y, y ∈ st.seen ↔ y ∈ st.unshared) :
    (specs.foldl (collectStep env mounts) st).unshared =
      st.unshared ++ (firstOccurrences (specs.filterMap (unsharedSource env mounts))).filter
        (fun y => decide (y ∉ st.unshared)) := by
  induction specs generalizing st with
  | nil => simp [firstOccurrences]
  | cons spec rest ih =>
    rw [List.foldl_cons, collectStep_eq]
    cases hu : unsharedSource env mounts spec with
    | none =>
      rw [List.filterMap_cons_none hu]
      exact ih st hseen
    | some y =>
      rw [List.filterMap_cons_some hu]
      simp only [firstOccurrences]
      by_cases hy : y ∈ st.seen
      · have hyU : y ∈ st.unshared := (hseen y).1 hy
        simp only [hy, if_true]
        rw [ih st hseen, List.filter_cons_of_neg (by simpa using hyU), List.filter_filter]
        congr 1
        apply List.filter_congr
        intro a _
        by_cases ha : a ∈ st.unshared
        · simp [ha]
        · have : a ≠ y := fun h => ha (h ▸ hyU)
          simp [ha, this]
      · have hyU : y ∉ st.unshared := fun h => hy ((hseen y).2 h)
        simp only [hy, if_false]
        rw [ih ⟨st.unshared ++ [y], y :: st.seen⟩ (by
          intro z
          simp only [List.mem_cons, List.mem_append, List.mem_singleton]
          rw [hseen z]
          tauto)]
        rw [List.filter_cons_of_pos (by simpa using hyU), List.filter_filter]
        simp only [List.append_assoc, List.singleton_append]
        congr 2
        apply List.filter_congr
        intro a _
        by_cases ha : a ∈ st.unshared <;> by_cases hay : a = y <;> simp [ha, hay]

/-- The function `firstOccurrences` on a list with repeats. -/
theorem firstOccurrences_example :
    firstOccurrences ["/b".toList, "/a".toList, "/b".toList, "/c".toList, "/a".toList] =
      ["/b".toList, "/a".toList, "/c".toList] := by
  decide

/-- C19: the sequence returned by `collectUnsharedHostPaths` is the list of the input
specs mapped through extract-and-normalize, filtered to the paths that are not shared,
with every repeat after the first removed: the unshared normalized paths in the order of
their first occurrence. -/
theorem collectUnsharedHostPaths_first_occurrences (env : Env) (specs : List GoString)
    (mounts : List (Option Mount)) :
    collectUnsharedHostPaths env specs mounts =
      firstOccurrences ((specs.filterMap (normalizedSource env)).filter
        (fun x => !isPathSharedWithMachine x mounts)) := by
  unfold collectUnsharedHostPaths
  rw [collect_unshared_eq env mounts specs ⟨[], []⟩ (fun _ => Iff.rfl),
    filterMap_unsharedSource]
  simp

/-! ## The scenario of the test -/

theorem unsharedSource_of_abs (env : Env) (mounts : List (Option Mount))
    (spec src dst : GoString) (rest : List GoString)
    (hsp : env.SplitVolumeString spec = src :: dst :: rest) (habs : IsAbs src = true) :
    unsharedSource env mounts spec =
      if isPathSharedWithMachine (Clean src) mounts then none else some (Clean src) := by
  have hne : src ≠ [] := by
    intro h
    rw [h] at habs
    exact absurd habs (by decide)
  have hlen : ¬ src.length = 0 := by rwa [List.length_eq_zero]
  have hpre : HasPrefix src ['/'] = true := habs
  have hex : extractBindMountSource env spec = (src, true) := by
    unfold extractBindMountSource
    simp [hsp, hlen, hpre]
  have hnorm : normalizeVolumeSource env src = .ok (Clean src) := by
    unfold normalizeVolumeSource
    by_cases hw : env.IsHostWinPath src = true
    · rw [if_pos hw]
    · rw [if_neg hw, if_pos habs]
  unfold unsharedSource
  simp only [hex, hnorm, if_true]

theorem unsharedSource_of_name (env : Env) (mounts : List (Option Mount))
    (spec src : GoString) (rest : List GoString)
    (hsp : env.SplitVolumeString spec = src :: rest)
    (h1 : HasPrefix src ['/'] = false) (h2 : HasPrefix src ['.'] = false)
    (h3 : env.IsHostWinPath src = false) :
    unsharedSource env mounts spec = none := by
  have hex : extractBindMountSource env spec = ([], false) := by
    unfold extractBindMountSource
    simp [hsp, h1, h2, h3]
  unfold unsharedSource
  simp [hex]

/-- C15: on a host where volume specs split at the colons and `namedVolume` is not a
host-style path, with the one mount `/tmp/shared` and the specs `/tmp/shared:/data`,
`/tmp/shared/nested:/n`, `/tmp/other:/f`, `/tmp/other:/f2` and `namedVolume:/ctr`,
`collectUnsharedHostPaths` returns the one-element list `/tmp/other`. -/
theorem collectUnsharedHostPaths_scenario (env : Env)
    (hsplit : ∀ vol, env.SplitVolumeString vol = Split vol ':')
    (hname : env.IsHostWinPath "namedVolume".toList = false) :
    collectUnsharedHostPaths env
        ["/tmp/shared:/data".toList, "/tmp/shared/nested:/n".toList, "/tmp/other:/f".toList,
          "/tmp/other:/f2".toList, "namedVolume:/ctr".toList]
        [some ⟨"/tmp/shared".toList⟩] =
      ["/tmp/other".toList] := by
  have h1 : unsharedSource env [some ⟨"/tmp/shared".toList⟩] "/tmp/shared:/data".toList =
      none := by
    rw [unsharedSource_of_abs env _ _ "/tmp/shared".toList "/data".toList []
      (by rw [hsplit]; decide) (by decide)]
    decide
  have h2 : unsharedSource env [some ⟨"/tmp/shared".toList⟩]
      "/tmp/shared/nested:/n".toList = none := by
    rw [unsharedSource_of_abs env _ _ "/tmp/shared/nested".toList "/n".toList []
      (by rw [hsplit]; decide) (by decide)]
    decide
  have h3 : unsharedSource env [some ⟨"/tmp/shared".toList⟩] "/tmp/other:/f".toList =
      some "/tmp/other".toList := by
    rw [unsharedSource_of_abs env _ _ "/tmp/other".toList "/f".toList []
      (by rw [hsplit]; decide) (by decide)]
    decide
  have h4 : unsharedSource env [some ⟨"/tmp/shared".toList⟩] "/tmp/other:/f2".toList =
      some "/tmp/other".toList := by
    rw [unsharedSource_of_abs env _ _ "/tmp/other".toList "/f2".toList []
      (by rw [hsplit]; decide) (by decide)]
    decide
  have h5 : unsharedSource env [some ⟨"/tmp/shared".toList⟩] "namedVolume:/ctr".toList =
      none :=
    unsharedSource_of_name env _ _ "namedVolume".toList ["/ctr".toList]
      (by rw [hsplit]; decide) (by decide) (by decide) hname
  unfold collectUnsharedHostPaths
  simp only [List.foldl_cons, List.foldl_nil, collectStep_eq, h1, h2, h3, h4, h5]
  decide

theorem collectUnsharedHostPaths_scenario_witness :
    collectUnsharedHostPaths hostEnv
        ["/tmp/shared:/data".toList, "/tmp/shared/nested:/n".toList, "/tmp/other:/f".toList,
          "/tmp/other:/f2".toList, "namedVolume:/ctr".toList]
        [some ⟨"/tmp/shared".toList⟩] =
      ["/tmp/other".toList] :=
  collectUnsharedHostPaths_scenario hostEnv (fun _ => rfl) (by decide)

/-! ## Paths that clean to the same path -/

theorem Split_append_sep (a b : GoString) (c : Char) :
    Split (a ++ c :: b) c = Split a c ++ Split b c := by
  induction a with
  | nil => rw [List.nil_append, Split_sep_cons, Split_nil]; rfl
  | cons x a ih =>
    unfold Split List.splitOn at ih ⊢
    rw [List.cons_append, List.splitOnP_cons, List.splitOnP_cons, ih]
    by_cases hx : (x == c) = true
    · rw [if_pos hx, if_pos hx]
      rfl
    · rw [if_neg hx, if_neg hx]
      cases hsp : List.splitOnP (fun y => y == c) a with
      | nil => exact absurd hsp (List.splitOnP_ne_nil _ a)
      | cons hd tl => rfl

theorem cleanStep_dotdot_le (rooted : Bool) (out : lazybuf) (e : GoString)
    (h : out.dotdot ≤ out.elems.length) :
    (cleanStep rooted out e).dotdot ≤ (cleanStep rooted out e).elems.length := by
  unfold cleanStep
  split_ifs with h1 h2 h3 h4 h5
  · exact h
  · exact h
  · show out.dotdot ≤ out.elems.dropLast.length
    rw [List.length_dropLast]
    omega
  · show out.elems.length + 1 ≤ (out.elems ++ [e]).length
    simp
  · exact h
  · show out.dotdot ≤ (out.elems ++ [e]).length
    rw [List.length_append]
    omega

theorem foldl_cleanStep_dotdot_le (rooted : Bool) (es : List GoString) (out : lazybuf)
    (h : out.dotdot ≤ out.elems.length) :
    (es.foldl (cleanStep rooted) out).dotdot ≤ (es.foldl (cleanStep rooted) out).elems.length := by
  induction es generalizing out with
  | nil => exact h
  | cons e rest ih =>
    rw [List.foldl_cons]
    exact ih _ (cleanStep_dotdot_le rooted out e h)

/-- From any state of the buffer, `filepath.Clean` does on a sequence of elements what it
does on the cleaned form of that sequence. -/
theorem foldl_cleanStep_cleaned (rooted : Bool) (es : List GoString) (out : lazybuf)
    (hes : ∀ e ∈ es, '/' ∉ e) (h : out.dotdot ≤ out.elems.length) :
    es.foldl (cleanStep rooted) out =
      (es.foldl (cleanStep false) ⟨[], 0⟩).elems.foldl (cleanStep rooted) out := by
  induction es using List.reverseRecOn with
  | nil => rfl
  | append_singleton es e ih =>
    have hes1 : ∀ x ∈ es, '/' ∉ x := fun x hx => hes x (List.mem_append_left _ hx)
    have he : '/' ∉ e := hes e (List.mem_append_right _ (List.mem_singleton_self e))
    rw [List.foldl_append, List.foldl_append, List.foldl_cons, List.foldl_nil,
      List.foldl_cons, List.foldl_nil, ih hes1]
    have hF : normalBuf false (es.foldl (cleanStep false) ⟨[], 0⟩) :=
      foldl_cleanStep_normal false es _ ⟨[], rfl, by simp, fun _ => rfl⟩ hes1
    generalize es.foldl (cleanStep false) ⟨[], 0⟩ = F at hF ⊢
    obtain ⟨body, hel, hreal, _⟩ := hF
    by_cases h1 : e = []
    · simp [cleanStep, h1]
    by_cases h2 : e = ['.']
    · simp [cleanStep, h2]
    by_cases h3 : e = ['.', '.']
    · subst h3
      by_cases hlen : F.elems.length > F.dotdot
      · have hstep : cleanStep false F ['.', '.'] = ⟨F.elems.dropLast, F.dotdot⟩ := by
          simp [cleanStep, hlen]
        rw [hstep]
        have hb : body ≠ [] := by
          intro hb
          rw [hel, hb] at hlen
          simp at hlen
        obtain ⟨body2, x, hbx⟩ : ∃ body2 x, body = body2 ++ [x] :=
          ⟨body.dropLast, body.getLast hb, (List.dropLast_append_getLast hb).symm⟩
        have hx : realElem x := hreal x (by rw [hbx]; simp)
        have hN : F.elems = (List.replicate F.dotdot ['.', '.'] ++ body2) ++ [x] := by
          rw [hel, hbx, List.append_assoc]
        show cleanStep rooted (F.elems.foldl (cleanStep rooted) out) ['.', '.'] =
          F.elems.dropLast.foldl (cleanStep rooted) out
        rw [hN, List.dropLast_concat, List.foldl_append, List.foldl_cons, List.foldl_nil,
          cleanStep_real rooted _ x hx]
        have hG := foldl_cleanStep_dotdot_le rooted
          (List.replicate F.dotdot ['.', '.'] ++ body2) out h
        generalize (List.replicate F.dotdot ['.', '.'] ++ body2).foldl (cleanStep rooted) out
          = G at hG ⊢
        have hGlen : G.dotdot < G.elems.length + 1 := by omega
        have hnot : ¬ G.elems.length + 1 ≤ G.dotdot := by omega
        simp [cleanStep, hGlen, hnot]
      · have hstep : cleanStep false F ['.', '.'] =
            ⟨F.elems ++ [['.', '.']], F.elems.length + 1⟩ := by
          simp [cleanStep, hlen]
        rw [hstep]
        show cleanStep rooted (F.elems.foldl (cleanStep rooted) out) ['.', '.'] =
          (F.elems ++ [['.', '.']]).foldl (cleanStep rooted) out
        rw [List.foldl_append, List.foldl_cons, List.foldl_nil]
    · rw [cleanStep_real false F e ⟨h1, h2, h3, he⟩]
      show cleanStep rooted (F.elems.foldl (cleanStep rooted) out) e =
        (F.elems ++ [e]).foldl (cleanStep rooted) out
      rw [List.foldl_append, List.foldl_cons, List.foldl_nil]

theorem Clean_relative (p : GoString) (h : IsAbs p = false) :
    Clean p = render false ((Split p '/').foldl (cleanStep false) ⟨[], 0⟩).elems := by
  by_cases hp : p = []
  · subst hp
    rfl
  · rw [Clean_of_ne_nil p hp, h]

/-- Two relative paths with the same cleaned form leave the same elements in the buffer
of `filepath.Clean`. -/
theorem cleaned_elems_eq (p q : GoString) (hp : IsAbs p = false) (hq : IsAbs q = false)
    (hc : Clean p = Clean q) :
    ((Split p '/').foldl (cleanStep false) ⟨[], 0⟩).elems =
      ((Split q '/').foldl (cleanStep false) ⟨[], 0⟩).elems := by
  have hnp : normalBuf false ((Split p '/').foldl (cleanStep false) ⟨[], 0⟩) :=
    foldl_cleanStep_normal false _ _ ⟨[], rfl, by simp, fun _ => rfl⟩ (Split_no_sep p '/')
  have hnq : normalBuf false ((Split q '/').foldl (cleanStep false) ⟨[], 0⟩) :=
    foldl_cleanStep_normal false _ _ ⟨[], rfl, by simp, fun _ => rfl⟩ (Split_no_sep q '/')
  obtain ⟨bp, hep, hrp, hkp⟩ := hnp
  obtain ⟨bq, heq, hrq, hkq⟩ := hnq
  rw [Clean_relative p hp, Clean_relative q hq] at hc
  have := congrArg pathElems hc
  rwa [pathElems_render false _ ⟨_, bp, hep, hrp, hkp⟩,
    pathElems_render false _ ⟨_, bq, heq, hrq, hkq⟩] at this

/-- Below a non-empty directory, two relative paths with the same cleaned form join to
the same cleaned path. -/
theorem Clean_join_congr (wd p q : GoString) (hwd : wd ≠ []) (hp : IsAbs p = false)
    (hq : IsAbs q = false) (hc : Clean p = Clean q) :
    Clean (wd ++ '/' :: p) = Clean (wd ++ '/' :: q) := by
  have habs : ∀ x : GoString, IsAbs (wd ++ '/' :: x) = IsAbs wd := by
    intro x
    cases wd with
    | nil => exact absurd rfl hwd
    | cons c cs => simp [IsAbs, HasPrefix, List.isPrefixOf]
  have h0 : (⟨[], 0⟩ : lazybuf).dotdot ≤ (⟨[], 0⟩ : lazybuf).elems.length := Nat.le_refl 0
  have hst := foldl_cleanStep_dotdot_le (IsAbs wd) (Split wd '/') ⟨[], 0⟩ h0
  rw [Clean_of_ne_nil _ (by simp), Clean_of_ne_nil _ (by simp), habs p, habs q,
    Split_append_sep, Split_append_sep, List.foldl_append, List.foldl_append,
    foldl_cleanStep_cleaned (IsAbs wd) (Split p '/') _ (Split_no_sep p '/') hst,
    foldl_cleanStep_cleaned (IsAbs wd) (Split q '/') _ (Split_no_sep q '/') hst,
    cleaned_elems_eq p q hp hq hc]

/-- C13, as stated, fails: `./C:/x` and `C:/x` clean to the same path, `C:/x`; the first
is a relative path and normalizes to `/home/user/C:/x` below the working directory, the
second is a host-style path and normalizes to `C:/x`. -/
theorem normalizeVolumeSource_not_congr :
    Clean "./C:/x".toList = Clean "C:/x".toList ∧
      normalizeVolumeSource hostEnv "./C:/x".toList = .ok "/home/user/C:/x".toList ∧
      normalizeVolumeSource hostEnv "C:/x".toList = .ok "C:/x".toList ∧
      normalizeVolumeSource hostEnv "./C:/x".toList ≠
        normalizeVolumeSource hostEnv "C:/x".toList := by
  have h1 : normalizeVolumeSource hostEnv "./C:/x".toList = .ok "/home/user/C:/x".toList := by
    rfl
  have h2 : normalizeVolumeSource hostEnv "C:/x".toList = .ok "C:/x".toList := by rfl
  refine ⟨by decide, h1, h2, ?_⟩
  rw [h1, h2]
  intro hc
  exact absurd (Except.ok.inj hc) (by decide)

/-- C13, amended: two paths with the same cleaned form that are absolute, or of which
both or neither are host-style paths, normalize to the same value under the same working
directory, when that is not the empty string. -/
theorem normalizeVolumeSource_congr (env : Env) (p q : GoString)
    (hwd : ∀ wd, env.Getwd = .ok wd → wd ≠ [])
    (hc : Clean p = Clean q)
    (hh : IsAbs p = true ∨ env.IsHostWinPath p = env.IsHostWinPath q) :
    normalizeVolumeSource env p = normalizeVolumeSource env q := by
  have habs : IsAbs p = IsAbs q := by rw [← IsAbs_Clean p, ← IsAbs_Clean q, hc]
  unfold normalizeVolumeSource Abs
  cases hap : IsAbs p
  · have haq : IsAbs q = false := by rw [← habs, hap]
    have hw : env.IsHostWinPath p = env.IsHostWinPath q := by
      rcases hh with h | h
      · rw [hap] at h
        exact absurd h (by decide)
      · exact h
    rw [← hw]
    cases hwp : env.IsHostWinPath p
    · simp only [haq, Bool.false_eq_true, if_false]
      cases hg : env.Getwd with
      | error err => rfl
      | ok wd =>
        simp only []
        rw [filepathJoin_clean wd p (hwd wd hg), filepathJoin_clean wd q (hwd wd hg),
          Clean_join_congr wd p q (hwd wd hg) hap haq hc]
    · simp only [if_true, hc]
  · have haq : IsAbs q = true := by rw [← habs, hap]
    cases env.IsHostWinPath p <;> cases env.IsHostWinPath q <;> simp [haq, hc]

theorem normalizeVolumeSource_congr_witness :
    normalizeVolumeSource hostEnv "./a/../b/".toList =
      normalizeVolumeSource hostEnv "b/.".toList :=
  normalizeVolumeSource_congr hostEnv "./a/../b/".toList "b/.".toList
    (by
      intro wd hg
      have : wd = "/home/user".toList := (Except.ok.inj hg).symm
      subst this
      decide)
    (by decide) (Or.inr (by decide))

/-! ## Where the paths are sorted -/

/-- C3, amended: the ascending order is the work of the caller.  Every warning that
`WarnIfMachineVolumesUnavailable` logs is logged for a machine that was found, and the
paths it lists are the result of `collectUnsharedHostPaths` on the specs and the mounts
of that machine, passed through `sort.Strings` and then joined: a list in ascending
order, whatever the order of the specs, with the same paths as the collector's result. -/
theorem WarnIfMachineVolumesUnavailable_sorts (env : Env) (menv : MachineEnv)
    (volumeSpecs : List GoString) :
    ∀ w ∈ WarnIfMachineVolumesUnavailable env menv volumeSpecs,
      ∃ cfg parsedURI machineConfig,
        menv.PodmanConfig = some cfg ∧ menv.ParseURI cfg.URI = .ok parsedURI ∧
        menv.FindMachineByPort cfg.URI parsedURI = .ok (machineConfig, false) ∧
        w = "The following bind mount sources are not shared with the Podman machine and may not work: ".toList
            ++ Join (sortStrings (collectUnsharedHostPaths env volumeSpecs machineConfig.Mounts))
              ", ".toList
            ++ ". See ".toList ++ machineVolumesDocURL
            ++ " for details on configuring machine volumes.".toList ∧
        List.Sorted stringLE
          (sortStrings (collectUnsharedHostPaths env volumeSpecs machineConfig.Mounts)) ∧
        (sortStrings (collectUnsharedHostPaths env volumeSpecs machineConfig.Mounts)).Perm
          (collectUnsharedHostPaths env volumeSpecs machineConfig.Mounts) := by
  intro w hw
  unfold WarnIfMachineVolumesUnavailable at hw
  by_cases hlen : volumeSpecs.length = 0
  · simp [hlen] at hw
  · cases hc : menv.PodmanConfig with
    | none => simp [hlen, hc] at hw
    | some cfg =>
      cases hm : cfg.MachineMode
      · simp [hlen, hc, hm] at hw
      · by_cases hu : cfg.URI.length = 0
        · simp [hlen, hc, hm, hu] at hw
        · cases hp : menv.ParseURI cfg.URI with
          | error err => simp [hlen, hc, hm, hu, hp] at hw
          | ok parsedURI =>
            cases hf : menv.FindMachineByPort cfg.URI parsedURI with
            | error err => simp [hlen, hc, hm, hu, hp, hf] at hw
            | ok found =>
              obtain ⟨machineConfig, isWSL⟩ := found
              cases isWSL
              · by_cases h0 : (collectUnsharedHostPaths env volumeSpecs
                    machineConfig.Mounts).length = 0
                · simp [hlen, hc, hm, hu, hp, hf, h0] at hw
                · simp only [hlen, hc, hm, hu, hp, hf, h0, if_false, Bool.not_true,
                    Bool.false_eq_true, List.mem_singleton] at hw
                  exact ⟨cfg, parsedURI, machineConfig, rfl, hp, hf, hw,
                    (sortStrings_sorted _).1, (sortStrings_sorted _).2⟩
              · simp [hlen, hc, hm, hu, hp, hf] at hw

theorem WarnIfMachineVolumesUnavailable_sorts_witness :
    ∃ cfg parsedURI machineConfig,
      sharedTmpMachine.PodmanConfig = some cfg ∧
      sharedTmpMachine.ParseURI cfg.URI = .ok parsedURI ∧
      sharedTmpMachine.FindMachineByPort cfg.URI parsedURI = .ok (machineConfig, false) ∧
      "The following bind mount sources are not shared with the Podman machine and may not work: /srv/a, /srv/b. See https://docs.podman.io/en/latest/markdown/podman-machine-init.1.html#volume for details on configuring machine volumes.".toList =
        "The following bind mount sources are not shared with the Podman machine and may not work: ".toList
          ++ Join (sortStrings (collectUnsharedHostPaths hostEnv
              ["/srv/b:/x".toList, "/tmp/shared/n:/n".toList, "/srv/a:/y".toList]
              machineConfig.Mounts)) ", ".toList
          ++ ". See ".toList ++ machineVolumesDocURL
          ++ " for details on configuring machine volumes.".toList ∧
      List.Sorted stringLE
        (sortStrings (collectUnsharedHostPaths hostEnv
          ["/srv/b:/x".toList, "/tmp/shared/n:/n".toList, "/srv/a:/y".toList]
          machineConfig.Mounts)) ∧
      (sortStrings (collectUnsharedHostPaths hostEnv
          ["/srv/b:/x".toList, "/tmp/shared/n:/n".toList, "/srv/a:/y".toList]
          machineConfig.Mounts)).Perm
        (collectUnsharedHostPaths hostEnv
          ["/srv/b:/x".toList, "/tmp/shared/n:/n".toList, "/srv/a:/y".toList]
          machineConfig.Mounts) :=
  WarnIfMachineVolumesUnavailable_sorts hostEnv sharedTmpMachine
    ["/srv/b:/x".toList, "/tmp/shared/n:/n".toList, "/srv/a:/y".toList] _
    (by
      rw [show WarnIfMachineVolumesUnavailable hostEnv sharedTmpMachine
          ["/srv/b:/x".toList, "/tmp/shared/n:/n".toList, "/srv/a:/y".toList] =
        ["The following bind mount sources are not shared with the Podman machine and may not work: /srv/a, /srv/b. See https://docs.podman.io/en/latest/markdown/podman-machine-init.1.html#volume for details on configuring machine volumes.".toList]
        from by rfl]
      exact List.mem_singleton_self _)

end MachineVolumeWarning
